import Mathlib

/-!
jittey: format detection and transcoding (`src/main.c`)

A shallow embedding of `get_bom`, `get_format` and `convert` of `src/main.c`,
followed by theorems about them.

Conventions of the embedding.

* A pointer is modelled by the list of the bytes (or 16-bit units) that are
  readable from it onwards.  A read past the end of that list is a memory
  fault; functions that read memory return `Option`, and `none` is the fault.
* Bytes and 16-bit units are natural numbers (`< 256`, `< 65536`).  A `PWSTR`
  is read from bytes in little-endian order.
* `SIZE_T` is 64 bits wide; the counters that can wrap are reduced modulo
  `2 ^ 64`.
* Lengths returned as `int` by the Win32 calls (`lstrlenW`, the transcoding
  primitives) are taken exact; the theorems that depend on it bound the length
  of the text by `2 ^ 31`.
* `HeapAlloc` is taken to succeed (the source terminates the process through
  `fatal` otherwise).
* The Win32 primitives `IsTextUnicode`, `MultiByteToWideChar` and
  `WideCharToMultiByte` are not part of the repository.  `IsTextUnicode` is a
  parameter; the two transcoding primitives are modelled after their
  documented behaviour for `CP_UTF8`.
-/

namespace Jittey

/-! ## Data model -/

/-- The `enum linebreak` of the source. -/
inductive linebreak where
  | LINEBREAK_UNIX
  | LINEBREAK_WIN
  deriving DecidableEq, Repr

/-- The `enum encoding` of the source. -/
inductive encoding where
  | ENCODING_UTF8
  | ENCODING_UTF16
  deriving DecidableEq, Repr

/-- The integer value of an enumerator of `enum encoding`. -/
def encoding.toInt : encoding → Int
  | .ENCODING_UTF8 => 0
  | .ENCODING_UTF16 => 1

/-- The `struct format` of the source. -/
structure format where
  encoding : encoding
  linebreak : linebreak
  bom : Bool
  deriving DecidableEq, Repr

/-- The format used by the internal text box. -/
def Internal_format : format :=
  { encoding := .ENCODING_UTF16, linebreak := .LINEBREAK_WIN, bom := false }

/-- The `struct bom` of the source: `data` is a `UINT32`, `size` is in bytes. -/
structure bom where
  data : Nat
  size : Nat
  deriving DecidableEq, Repr

/-! ## The BOM table -/

/-- The function `get_bom`, as the `switch` over the integer value of its
argument, the `default` case included. -/
def get_bom (encoding : Int) : bom :=
  if encoding = 1 then { data := 0xFEFF, size := 2 }
  else if encoding = 0 then { data := 0xBFBBEF, size := 3 }
  else { data := 0, size := 0 }

/-- The compound literal `(struct bom){0}`. -/
def bom_zero : bom := { data := 0, size := 0 }

/-- The four bytes of a `UINT32` in memory (little-endian). -/
def uint32_bytes (d : Nat) : List Nat :=
  [d % 256, d / 256 % 256, d / 65536 % 256, d / 16777216 % 256]

/-- The bytes `memcpy(dst, &bom.data, bom.size)` copies, and `memcmp(src,
&bom.data, bom.size)` compares with: the first `size` bytes of `data`. -/
def bom_bytes (b : bom) : List Nat :=
  (uint32_bytes b.data).take b.size

/-! ## Memory helpers -/

/-- The 16-bit units readable from a byte pointer (little-endian); a trailing
single byte is not a readable unit. -/
def units_of_bytes : List Nat → List Nat
  | b0 :: b1 :: rest => (b0 + 256 * b1) :: units_of_bytes rest
  | _ => []

/-- The bytes of a list of 16-bit units in memory. -/
def bytes_of_units : List Nat → List Nat
  | [] => []
  | u :: rest => (u % 256) :: (u / 256 % 256) :: bytes_of_units rest

/-- The content of the null-terminated string at a pointer (the units before
the first zero); `none` when the readable memory holds no terminator. -/
def cstr : List Nat → Option (List Nat)
  | [] => none
  | c :: rest => if c = 0 then some [] else (cstr rest).map (fun s => c :: s)

/-- The function `lstrlenW` (also `strlen`): the number of units before the
first zero. -/
def lstrlenW (s : List Nat) : Option Nat :=
  (cstr s).map List.length

/-- The test `!memcmp(src, sig, n)` with `n = sig.length`: `none` when
fewer than `n` bytes are readable at `src`. -/
def memcmp_eq (src sig : List Nat) : Option Bool :=
  if src.length < sig.length then none else some (decide (src.take sig.length = sig))

/-! ## The detector -/

/-- The loop `while (wc = wcschr(wc+1, L'\n')) { if (wc - start == 0 ||
*(wc-1) != L'\r') { format.linebreak = LINEBREAK_UNIX; break; } }` of
`get_format`, and its `strchr` twin.  The list is the memory from `wc+1` on,
`i` is the offset `wc+1 - start` and `prev` is the unit at `wc`.  `wcschr`
walks the units until it meets the line feed (the test of the loop body runs)
or the terminator (the loop ends with the linebreak left at
`LINEBREAK_WIN`). -/
def linebreak_scan (i : Nat) (prev : Nat) : List Nat → Option linebreak
  | [] => none
  | u :: rest =>
    if u = 10 then
      if i = 0 ∨ prev ≠ 13 then some .LINEBREAK_UNIX
      else linebreak_scan (i + 1) u rest
    else if u = 0 then some .LINEBREAK_WIN
    else linebreak_scan (i + 1) u rest

/-- The scan of `get_format` from the pointer `start`: the first unit looked
at is the one at `start + 1`. -/
def linebreak_from (start : List Nat) : Option linebreak :=
  match start with
  | [] => none
  | u0 :: rest => linebreak_scan 1 u0 rest

/-- The function `get_format`.  `src` is the memory readable from the
pointer, `src_size` the size passed by the caller. -/
def get_format (IsTextUnicode : List Nat → Nat → Bool) (src : List Nat) (src_size : Nat) :
    Option format :=
  if IsTextUnicode src src_size then
    let b := get_bom encoding.ENCODING_UTF16.toInt
    (if src_size ≥ b.size then memcmp_eq src (bom_bytes b) else some false).bind fun fbom =>
    let bsize := if !fbom then 0 else b.size
    (linebreak_from (units_of_bytes (src.drop bsize))).map fun lb =>
      { encoding := .ENCODING_UTF16, linebreak := lb, bom := fbom }
  else
    let b := get_bom encoding.ENCODING_UTF8.toInt
    (if src_size ≥ b.size then memcmp_eq src (bom_bytes b) else some false).bind fun fbom =>
    (linebreak_from (src.drop b.size)).map fun lb =>
      { encoding := .ENCODING_UTF8, linebreak := lb, bom := fbom }

/-! ## The transcoding primitives (Win32, modelled) -/

/-- The UTF-16 units of a code point: itself below U+10000, a surrogate pair
from there on. -/
def units_of_cp (cp : Nat) : List Nat :=
  if cp < 0x10000 then [cp]
  else [0xD800 + (cp - 0x10000) / 1024, 0xDC00 + (cp - 0x10000) % 1024]

/-- A strict UTF-8 decoder, one byte at a time.  `need` is the number of
continuation bytes the current sequence still lacks, `acc` the bits of the code
point read so far, and `lo`, `hi` bound the next continuation byte (the
bounds after the lead bytes `E0`, `ED`, `F0`, `F4` exclude overlong forms,
surrogates and values above U+10FFFF).  `none` when the bytes are not
well-formed UTF-8. -/
def utf8_decode (need acc lo hi : Nat) : List Nat → Option (List Nat)
  | [] => if need = 0 then some [] else none
  | b :: rest =>
    if need = 0 then
      if b < 0x80 then (utf8_decode 0 0 0x80 0xBF rest).map (fun us => b :: us)
      else if b < 0xC2 then none
      else if b < 0xE0 then utf8_decode 1 (b - 0xC0) 0x80 0xBF rest
      else if b < 0xF0 then
        utf8_decode 2 (b - 0xE0) (if b = 0xE0 then 0xA0 else 0x80)
          (if b = 0xED then 0x9F else 0xBF) rest
      else if b < 0xF5 then
        utf8_decode 3 (b - 0xF0) (if b = 0xF0 then 0x90 else 0x80)
          (if b = 0xF4 then 0x8F else 0xBF) rest
      else none
    else if lo ≤ b ∧ b ≤ hi then
      if need = 1 then
        (utf8_decode 0 0 0x80 0xBF rest).map
          (fun us => units_of_cp (acc * 64 + (b - 0x80)) ++ us)
      else utf8_decode (need - 1) (acc * 64 + (b - 0x80)) 0x80 0xBF rest
    else none

/-- The UTF-16 units of a UTF-8 byte string, as `MultiByteToWideChar(CP_UTF8,
MB_ERR_INVALID_CHARS, ...)` produces them: `none` when the bytes are not
well-formed UTF-8 (a stray continuation byte, a truncated or overlong sequence,
an encoded surrogate, a value above U+10FFFF). -/
def utf8_to_utf16 (bs : List Nat) : Option (List Nat) :=
  utf8_decode 0 0 0x80 0xBF bs

/-- The UTF-8 bytes of one UTF-16 unit that is not converted as part of a
surrogate pair; a surrogate is replaced by U+FFFD (`EF BF BD`). -/
def utf8_of_unit (u : Nat) : List Nat :=
  if u < 0x80 then [u]
  else if u < 0x800 then [0xC0 + u / 64, 0x80 + u % 64]
  else if 0xD800 ≤ u ∧ u ≤ 0xDFFF then [0xEF, 0xBF, 0xBD]
  else [0xE0 + u / 4096, 0x80 + u / 64 % 64, 0x80 + u % 64]

/-- The UTF-8 bytes of a list of UTF-16 units, as `WideCharToMultiByte(CP_UTF8,
0, ...)` produces them: a high surrogate followed by a low surrogate becomes a
four-byte sequence, every other unit is converted on its own. -/
def utf16_to_utf8 : List Nat → List Nat
  | [] => []
  | [u] => utf8_of_unit u
  | u :: lo :: rest =>
    if (0xD800 ≤ u ∧ u ≤ 0xDBFF) ∧ (0xDC00 ≤ lo ∧ lo ≤ 0xDFFF) then
      let cp := 0x10000 + (u - 0xD800) * 1024 + (lo - 0xDC00)
      (0xF0 + cp / 262144) :: (0x80 + cp / 4096 % 64) :: (0x80 + cp / 64 % 64) ::
        (0x80 + cp % 64) :: utf16_to_utf8 rest
    else utf8_of_unit u ++ utf16_to_utf8 (lo :: rest)

/-- The call `MultiByteToWideChar(CP_UTF8, MB_ERR_INVALID_CHARS, p, -1, ...)`:
the string at `p` is read through its terminator; the result is the list of
units written, terminator included, and the empty list stands for the return
value 0 (invalid input).  The return value is the length of the list. -/
def MultiByteToWideChar (p : List Nat) : Option (List Nat) :=
  (cstr p).map fun s =>
    match utf8_to_utf16 s with
    | none => []
    | some us => us ++ [0]

/-- The call `WideCharToMultiByte(CP_UTF8, 0, p, cch, ...)`, where `cch` is the
`SIZE_T` value the caller computes for the `int` parameter: 0 makes the call
fail (return value 0, the empty list), `2 ^ 64 - 1` is the `int` -1 and means
a null-terminated string, and a count below `2 ^ 31` converts exactly `cch`
units.  Other counts are outside the documented domain (`none`, like a
fault). -/
def WideCharToMultiByte (p : List Nat) (cch : Nat) : Option (List Nat) :=
  if cch = 0 then some []
  else if cch = 2 ^ 64 - 1 then (cstr p).map fun s => utf16_to_utf8 (s ++ [0])
  else if cch < 2 ^ 31 then
    if p.length < cch then none else some (utf16_to_utf8 (p.take cch))
  else none

/-! ## The transcoding pipeline -/

/-- The heap blocks a call of `convert` deals with: the caller's `src`, and the
buffers allocated by the decode stage, by the linebreak stage and by the
encode stage. -/
inductive Block where
  | src
  | decoded
  | relined
  | encoded
  deriving DecidableEq, Repr

/-- The intermediate buffer of `convert`: the units readable from the pointer
`inter`, `inter_size` (bytes), `inter_should_free`, and the heap block the
pointer lies in. -/
structure Inter where
  mem : List Nat
  size : Nat
  should_free : Bool
  block : Block
  deriving DecidableEq, Repr

/-- What a call of `convert` leaves behind: the returned pointer (`none` is
`NULL`, otherwise the `new_size` bytes of the returned buffer), the value
stored through `new_size`, and the blocks released by `HeapFree`, in order. -/
structure Result where
  ret : Option (List Nat)
  new_size : Nat
  freed : List Block
  deriving DecidableEq, Repr

/-- The outcome of a stage of `convert`: it either falls through to the next
stage with an intermediate buffer, or jumps to `quit` with `fail = TRUE`
(the intermediate buffer held at that point is kept for the `quit` code). -/
inductive Stage where
  | next (inter : Inter) (freed : List Block)
  | quit (inter : Option Inter) (freed : List Block)
  deriving DecidableEq, Repr

/-- The decode stage of `convert` (`switch (from.encoding)`). -/
def convert_decode (src : List Nat) (from_ : format) : Option Stage :=
  let from_bom := if from_.bom then get_bom from_.encoding.toInt else bom_zero
  match from_.encoding with
  | .ENCODING_UTF16 =>
    (lstrlenW (units_of_bytes src)).map fun len =>
      Stage.next
        { mem := units_of_bytes (src.drop from_bom.size),
          size := ((len + 1) * 2 + 2 ^ 64 - from_bom.size) % 2 ^ 64,
          should_free := false, block := .src } []
  | .ENCODING_UTF8 =>
    match src with
    | [] => none
    | c0 :: _ =>
      if c0 = 0 then
        some (Stage.next { mem := [0], size := 2, should_free := true, block := .decoded } [])
      else
        (MultiByteToWideChar (src.drop from_bom.size)).map fun out =>
          let inter_length := out.length
          if inter_length = 0 then Stage.quit none []
          else
            Stage.next
              { mem := out, size := inter_length * 2 % 2 ^ 64, should_free := true,
                block := .decoded } []

/-- The counting loop of the `LINEBREAK_WIN` case: the list is the memory from
`wc` on, `i` is `wc - inter`, `prev` is the unit at `wc - 1`; the result is
`(newinter_length, skip)`. -/
def win_count (i : Nat) (prev : Nat) (len : Nat) (skip : Bool) : List Nat → Option (Nat × Bool)
  | [] => none
  | wc :: rest =>
    if wc = 0 then some (len, skip)
    else if wc = 10 ∧ (i = 0 ∨ prev ≠ 13) then
      win_count (i + 1) wc (((len + 1) % 2 ^ 64 + 1) % 2 ^ 64) false rest
    else win_count (i + 1) wc ((len + 1) % 2 ^ 64) skip rest

/-- The writing loop of the `LINEBREAK_WIN` case: the units stored through
`dc`, the final `L'\0'` included. -/
def win_write (i : Nat) (prev : Nat) : List Nat → Option (List Nat)
  | [] => none
  | sc :: rest =>
    if sc = 0 then some [0]
    else if sc = 10 ∧ (i = 0 ∨ prev ≠ 13) then
      (win_write (i + 1) sc rest).map fun w => 13 :: sc :: w
    else (win_write (i + 1) sc rest).map fun w => sc :: w

/-- The test `!wcsncmp(wc, L"\r\n", 2)` at a unit `wc` that is not the
terminator, `rest` being the memory after it. -/
def is_crlf (wc : Nat) (rest : List Nat) : Bool :=
  decide (wc = 13 ∧ rest.head? = some 10)

/-- The counting loop of the `LINEBREAK_UNIX` case; the result is
`(newinter_length, skip)`.  The decrement is the `SIZE_T` one. -/
def unix_count (len : Nat) (skip : Bool) : List Nat → Option (Nat × Bool)
  | [] => none
  | wc :: rest =>
    if wc = 0 then some (len, skip)
    else if is_crlf wc rest then
      unix_count (((len + 2 ^ 64 - 1) % 2 ^ 64 + 1) % 2 ^ 64) false rest
    else unix_count ((len + 1) % 2 ^ 64) skip rest

/-- The writing loop of the `LINEBREAK_UNIX` case: the units stored through
`dc`, the final `L'\0'` included (`dc--; continue;` followed by the `dc++` of
the loop header stores nothing and leaves `dc` where it was). -/
def unix_write : List Nat → Option (List Nat)
  | [] => none
  | sc :: rest =>
    if sc = 0 then some [0]
    else if is_crlf sc rest then unix_write rest
    else (unix_write rest).map fun w => sc :: w

/-- The tail shared by both cases of the linebreak stage, after `if (skip)
break;`: the buffer of `newinter_length + 1` units is allocated and written
(a store past its end is a fault), the old intermediate buffer is released if
it was owned, and the new one takes its place. -/
def reline (inter : Inter) (newinter_length : Nat) (written : List Nat) : Option Stage :=
  if written.length > newinter_length + 1 then none
  else
    some (Stage.next
      { mem := written, size := (newinter_length + 1) * 2 % 2 ^ 64, should_free := true,
        block := .relined }
      (if inter.should_free then [inter.block] else []))

/-- The linebreak stage of `convert` (`switch (to.linebreak)`). -/
def convert_linebreak (inter : Inter) (to_ : format) : Option Stage :=
  match to_.linebreak with
  | .LINEBREAK_WIN =>
    (win_count 0 0 0 true inter.mem).bind fun (newinter_length, skip) =>
      if skip then some (Stage.next inter [])
      else (win_write 0 0 inter.mem).bind fun w => reline inter newinter_length w
  | .LINEBREAK_UNIX =>
    (unix_count 0 true inter.mem).bind fun (newinter_length, skip) =>
      if skip then some (Stage.next inter [])
      else (unix_write inter.mem).bind fun w => reline inter newinter_length w

/-- The bytes `memcpy(dst, p, n)` reads at `p`: `none` when fewer than `n`
bytes are readable there. -/
def memcpy_read (p : List Nat) (n : Nat) : Option (List Nat) :=
  if p.length < n then none else some (p.take n)

/-- The encode stage of `convert` (`switch (to.encoding)`).  On success the
intermediate buffer is the returned one: its `mem` holds the bytes of the
buffer. -/
def convert_encode (inter : Inter) (to_ : format) (nullterm : Bool) : Option Stage :=
  let to_bom := if to_.bom then get_bom to_.encoding.toInt else bom_zero
  let not_nullterm : Nat := if nullterm then 0 else 1
  let freed := if inter.should_free then [inter.block] else []
  match to_.encoding with
  | .ENCODING_UTF16 =>
    let newinter_size := (inter.size + to_bom.size + 2 ^ 64 - not_nullterm * 2) % 2 ^ 64
    (memcpy_read (bytes_of_units inter.mem)
        ((inter.size + 2 ^ 64 - not_nullterm * 2) % 2 ^ 64)).map fun text =>
      Stage.next
        { mem := bom_bytes to_bom ++ text, size := newinter_size, should_free := false,
          block := .encoded } freed
  | .ENCODING_UTF8 =>
    match inter.mem with
    | [] => none
    | w0 :: _ =>
      if w0 = 0 then
        some (Stage.next
          { mem := if nullterm then [0] else [], size := if nullterm then 1 else 0,
            should_free := false, block := .encoded } freed)
      else
        (WideCharToMultiByte inter.mem
            ((inter.size / 2 + 2 ^ 64 - not_nullterm) % 2 ^ 64)).map fun out =>
          if out.length = 0 then Stage.quit (some inter) []
          else
            Stage.next
              { mem := bom_bytes to_bom ++ out, size := (out.length + to_bom.size) % 2 ^ 64,
                should_free := false, block := .encoded } freed

/-- The code after the label `quit` of `convert`: the intermediate buffer is
released if it is still owned, `src` is released if `src_should_free`, and
`NULL` with size 0 is returned when `fail` is set. -/
def convert_quit (inter : Option Inter) (fail : Bool) (src_should_free : Bool)
    (freed : List Block) : Result :=
  let freed1 :=
    match inter with
    | some it => if it.should_free then freed ++ [it.block] else freed
    | none => freed
  let freed2 := if src_should_free then freed1 ++ [Block.src] else freed1
  let kept : Option Inter :=
    match inter with
    | some it => if it.should_free then none else some it
    | none => none
  { ret := if fail then none else kept.map fun it => it.mem,
    new_size := if fail then 0 else (match inter with | some it => it.size | none => 0),
    freed := freed2 }

/-- The function `convert`.  `src` is the memory readable from the pointer
`src`; the result is `none` when the call reads or writes outside the memory
it may use. -/
def convert (src : List Nat) (from_ to_ : format) (nullterm src_should_free : Bool) :
    Option Result :=
  (convert_decode src from_).bind fun a =>
    match a with
    | .quit inter f => some (convert_quit inter true src_should_free f)
    | .next inter1 f1 =>
      (convert_linebreak inter1 to_).bind fun b =>
        match b with
        | .quit inter f => some (convert_quit inter true src_should_free (f1 ++ f))
        | .next inter2 f2 =>
          (convert_encode inter2 to_ nullterm).bind fun c =>
            match c with
            | .quit inter f => some (convert_quit inter true src_should_free (f1 ++ f2 ++ f))
            | .next inter3 f3 =>
              some (convert_quit (some inter3) false src_should_free (f1 ++ f2 ++ f3))

/-! ## Loading a file -/

/-- The state `load_from_file` reads and writes: the window text of
`Gui.text_box` (its units, without the terminator), `Settings.format`,
`Settings.is_new`, and the window text of `Gui.filename`. -/
structure Editor where
  text : List Nat
  format : format
  is_new : Bool
  filename : List Nat
  deriving DecidableEq, Repr

/-- What `load_from_file` does besides changing the state, in order: the two
error boxes, the allocation of the read buffer (its size in bytes), the calls
of `get_format` (with `src_size`) and of `convert` (with the source format),
and `SetWindowTextW` on the text box. -/
inductive Event where
  | error_open
  | error_too_big (src_size limit maxchars : Nat)
  | alloc (size : Nat)
  | get_format (src_size : Nat)
  | convert (from_ : format)
  | set_text
  deriving DecidableEq, Repr

/-- The outcome of `load_from_file`: it returns with a state, or a call it
makes reads outside its memory; either way with the events so far. -/
inductive Loaded where
  | done (st : Editor) (trace : List Event)
  | fault (trace : List Event)
  deriving DecidableEq, Repr

/-- The events of an outcome. -/
def Loaded.trace : Loaded → List Event
  | .done _ tr => tr
  | .fault tr => tr

/-- The function `change_format`, as far as the state goes (the status bar
shows what `Settings.format` holds). -/
def change_format (f : format) (st : Editor) : Editor :=
  { st with format := f }

/-- The function `change_filename`. -/
def change_filename (fname : List Nat) (st : Editor) : Editor :=
  { st with filename := fname }

/-- The code after the label `quit` of `load_from_file`: the handle is closed,
the file name is displayed and `Settings.is_new` is cleared. -/
def load_quit (fpath : List Nat) (st : Editor) (trace : List Event) : Loaded :=
  Loaded.done { (change_filename fpath st) with is_new := false } trace

/-- The function `load_from_file`.  `fpath` is `none` for `NULL`; `file` is the
content of the file at that path, `none` when `CreateFileW` cannot open it;
`maxchars` is the answer of the text box to `EM_GETLIMITTEXT`; `behind` is the
memory readable behind the read buffer of `src_size + 2` bytes, which
`get_format` and `convert` see when they read past the two zero bytes (`[]`
when nothing is readable there).  `GetFileSizeEx` and `ReadFile` are taken to
succeed (the source terminates the process otherwise). -/
def load_from_file (IsTextUnicode : List Nat → Nat → Bool) (maxchars : Nat)
    (fpath : Option (List Nat)) (file : Option (List Nat)) (behind : List Nat)
    (st : Editor) : Loaded :=
  match fpath with
  | none => Loaded.done st []
  | some path =>
    match file with
    | none => Loaded.done st [Event.error_open]
    | some bytes =>
      let src_size := bytes.length
      if src_size = 0 then load_quit path { st with text := [] } [Event.set_text]
      else if src_size > maxchars * 2 % 2 ^ 64 then
        load_quit path st [Event.error_too_big src_size (maxchars * 2 % 2 ^ 64) maxchars]
      else
        let src := bytes ++ 0 :: 0 :: behind
        let tr1 := [Event.alloc ((src_size + 2) % 2 ^ 64), Event.get_format src_size]
        match get_format IsTextUnicode src src_size with
        | none => Loaded.fault tr1
        | some source_format =>
          let st1 := change_format source_format st
          let tr2 := tr1 ++ [Event.convert source_format]
          match convert src source_format Internal_format true true with
          | none => Loaded.fault tr2
          | some r =>
            match r.ret with
            | none => load_quit path st1 tr2
            | some converted =>
              match cstr (units_of_bytes converted) with
              | none => Loaded.fault (tr2 ++ [Event.set_text])
              | some text => load_quit path { st1 with text := text } (tr2 ++ [Event.set_text])

/-! ## Notions used in the statements -/

/-- A carriage return immediately followed by a line feed occurs in the text. -/
def has_crlf : List Nat → Bool
  | [] => false
  | c :: rest => is_crlf c rest || has_crlf rest

/-- A carriage return immediately followed by a carriage return and a line
feed occurs in the text. -/
def has_crcrlf : List Nat → Bool
  | [] => false
  | c :: rest => (decide (c = 13) && has_crlf (rest.take 2)) || has_crcrlf rest

/-- Every line feed of the text is immediately preceded by a carriage return,
`prev` being the unit before the text. -/
def lf_after_cr (prev : Nat) : List Nat → Bool
  | [] => true
  | c :: rest => (decide (c ≠ 10) || decide (prev = 13)) && lf_after_cr c rest

/-- The text with the carriage return of every CR LF pair removed. -/
def to_unix : List Nat → List Nat
  | [] => []
  | c :: rest => if is_crlf c rest then to_unix rest else c :: to_unix rest

/-- The text with a carriage return inserted before every line feed that is
not preceded by one, `prev` being the unit before the text. -/
def to_win (prev : Nat) : List Nat → List Nat
  | [] => []
  | c :: rest =>
    if c = 10 ∧ prev ≠ 13 then 13 :: c :: to_win c rest else c :: to_win c rest

/-- The memory image of a null-terminated UTF-16 text with content `s`. -/
def wide_string (s : List Nat) : List Nat := bytes_of_units (s ++ [0])

/-- The text the decode stage of `convert` hands to the linebreak stage: the
units of the intermediate buffer before its terminator. -/
def decoded_text (src : List Nat) (from_ : format) : Option (List Nat) :=
  (convert_decode src from_).bind fun a =>
    match a with
    | .next inter _ => cstr inter.mem
    | .quit _ _ => none

/-- The states of `utf8_decode` that the start state can reach. -/
def decode_state_ok (need acc lo hi : Nat) : Prop :=
  hi ≤ 0xBF ∧ 0x80 ≤ lo ∧
  (need = 0 ∨ ((1 ≤ acc ∨ 0x80 < lo) ∧
    ((need = 1 ∧ acc < 20480) ∨ (need = 2 ∧ acc < 320) ∨ (need = 3 ∧ acc < 5))))

/-- The text the linebreak stage of `convert` produces from the text `t` for a
target linebreak style. -/
def relined_text (lb : linebreak) (t : List Nat) : List Nat :=
  match lb with
  | .LINEBREAK_WIN => to_win 0 t
  | .LINEBREAK_UNIX => to_unix t

/-- The bytes the encode stage of `convert` returns for the text `t`: the
signature when `to.bom` is set, then the text in the target encoding, then the
terminator when `nullterm` is set; for an empty text and UTF-8 the source
returns the terminator alone (or nothing) and writes no signature. -/
def encoded_bytes (to_ : format) (nullterm : Bool) (t : List Nat) : List Nat :=
  let to_bom := if to_.bom then get_bom to_.encoding.toInt else bom_zero
  match to_.encoding with
  | .ENCODING_UTF16 => bom_bytes to_bom ++ bytes_of_units (if nullterm then t ++ [0] else t)
  | .ENCODING_UTF8 =>
    if t = [] then (if nullterm then [0] else [])
    else bom_bytes to_bom ++ utf16_to_utf8 (if nullterm then t ++ [0] else t)

/-- The intermediate buffer holds the null-terminated text `t`, and its size
is the size of that text with its terminator. -/
def inter_holds (inter : Inter) (t : List Nat) : Prop :=
  0 ∉ t ∧ (∃ tail, inter.mem = t ++ 0 :: tail) ∧ inter.size = (t.length + 1) * 2

/-- The code units of a returned buffer: 16-bit units for UTF-16, bytes for
UTF-8. -/
def output_text (enc : encoding) (out : List Nat) : List Nat :=
  match enc with
  | .ENCODING_UTF16 => units_of_bytes out
  | .ENCODING_UTF8 => out

/-- The null code unit of an encoding in memory: one zero byte for UTF-8, two
for UTF-16. -/
def null_unit (enc : encoding) : List Nat :=
  match enc with
  | .ENCODING_UTF16 => [0, 0]
  | .ENCODING_UTF8 => [0]

/-- The number of bare line feeds of a text: the line feeds that are not
immediately preceded by a carriage return, `prev` being the unit before the
text (`0` at the start of the buffer, so that a line feed at index 0 counts). -/
def bare_lf_count (prev : Nat) : List Nat → Nat
  | [] => 0
  | c :: rest => (if c = 10 ∧ prev ≠ 13 then 1 else 0) + bare_lf_count c rest

/-- The number of CR LF pairs of a text: the carriage returns immediately
followed by a line feed. -/
def crlf_count : List Nat → Nat
  | [] => 0
  | c :: rest => (if c = 13 ∧ rest.head? = some 10 then 1 else 0) + crlf_count rest

/-! ## Lemmas: strings in memory -/

theorem cstr_append (s tail : List Nat) (h : 0 ∉ s) : cstr (s ++ 0 :: tail) = some s := by
  induction s with
  | nil => simp [cstr]
  | cons c rest ih =>
    have hc : c ≠ 0 := fun e => h (by simp [e])
    have hr : 0 ∉ rest := fun e => h (by simp [e])
    simp [cstr, hc, ih hr]

theorem cstr_zero (tail : List Nat) : cstr (0 :: tail) = some [] := by
  simp [cstr]

theorem is_crlf_append (c : Nat) (rest tail : List Nat) :
    is_crlf c (rest ++ 0 :: tail) = is_crlf c rest := by
  cases rest <;> simp [is_crlf]

theorem mod_size_t (n : Nat) (h : n < 2 ^ 64) : n % 2 ^ 64 = n := Nat.mod_eq_of_lt h

/-! ## Lemmas: the linebreak loops -/

theorem win_write_eq (s tail : List Nat) (h : 0 ∉ s) (i prev p : Nat)
    (hp : (i = 0 ∨ prev ≠ 13) ↔ p ≠ 13) :
    win_write i prev (s ++ 0 :: tail) = some (to_win p s ++ [0]) := by
  induction s generalizing i prev p with
  | nil => simp [win_write, to_win]
  | cons c rest ih =>
    have hc : c ≠ 0 := fun e => h (by simp [e])
    have hr : 0 ∉ rest := fun e => h (by simp [e])
    have ih1 := ih hr (i + 1) c c (by simp)
    by_cases hb : c = 10 ∧ (i = 0 ∨ prev ≠ 13)
    · have hb2 : c = 10 ∧ p ≠ 13 := ⟨hb.1, hp.mp hb.2⟩
      rw [List.cons_append, win_write, if_neg hc, if_pos hb, ih1, to_win, if_pos hb2]
      rfl
    · have hb2 : ¬ (c = 10 ∧ p ≠ 13) := fun e => hb ⟨e.1, hp.mpr e.2⟩
      rw [List.cons_append, win_write, if_neg hc, if_neg hb, ih1, to_win, if_neg hb2]
      rfl

theorem win_count_eq (s tail : List Nat) (h : 0 ∉ s) (i prev p len : Nat) (skip : Bool)
    (hp : (i = 0 ∨ prev ≠ 13) ↔ p ≠ 13) (hlen : len < 2 ^ 64) :
    win_count i prev len skip (s ++ 0 :: tail) =
      some ((len + (to_win p s).length) % 2 ^ 64, skip && lf_after_cr p s) := by
  induction s generalizing i prev p len skip with
  | nil =>
    simp only [List.nil_append, win_count, if_true, to_win, List.length_nil, Nat.add_zero,
      lf_after_cr, Bool.and_true, mod_size_t len hlen]
  | cons c rest ih =>
    have hc : c ≠ 0 := fun e => h (by simp [e])
    have hr : 0 ∉ rest := fun e => h (by simp [e])
    by_cases hb : c = 10 ∧ (i = 0 ∨ prev ≠ 13)
    · have hb2 : c = 10 ∧ p ≠ 13 := ⟨hb.1, hp.mp hb.2⟩
      have ih1 := ih hr (i + 1) c c (((len + 1) % 2 ^ 64 + 1) % 2 ^ 64) false (by simp)
        (Nat.mod_lt _ (by norm_num))
      rw [List.cons_append, win_count, if_neg hc, if_pos hb, ih1, to_win, if_pos hb2,
        lf_after_cr]
      simp only [List.length_cons, Option.some.injEq, Prod.mk.injEq]
      constructor
      · omega
      · simp [hb2.1, hb2.2]
    · have hb2 : ¬ (c = 10 ∧ p ≠ 13) := fun e => hb ⟨e.1, hp.mpr e.2⟩
      have ih1 := ih hr (i + 1) c c ((len + 1) % 2 ^ 64) skip (by simp)
        (Nat.mod_lt _ (by norm_num))
      rw [List.cons_append, win_count, if_neg hc, if_neg hb, ih1, to_win, if_neg hb2,
        lf_after_cr]
      simp only [List.length_cons, Option.some.injEq, Prod.mk.injEq]
      constructor
      · omega
      · have : (decide (c ≠ 10) || decide (p = 13)) = true := by
          by_cases h10 : c = 10
          · have : p = 13 := by
              by_contra h13
              exact hb2 ⟨h10, h13⟩
            simp [this]
          · simp [h10]
        rw [this]
        simp

theorem unix_write_eq (s tail : List Nat) (h : 0 ∉ s) :
    unix_write (s ++ 0 :: tail) = some (to_unix s ++ [0]) := by
  induction s with
  | nil => simp [unix_write, to_unix]
  | cons c rest ih =>
    have hc : c ≠ 0 := fun e => h (by simp [e])
    have hr : 0 ∉ rest := fun e => h (by simp [e])
    by_cases hb : is_crlf c rest = true
    · rw [List.cons_append, unix_write, if_neg hc, is_crlf_append, if_pos hb, ih hr, to_unix,
        if_pos hb]
    · rw [List.cons_append, unix_write, if_neg hc, is_crlf_append, if_neg hb, ih hr, to_unix,
        if_neg hb]
      rfl

theorem unix_count_eq (s tail : List Nat) (h : 0 ∉ s) (len : Nat) (skip : Bool)
    (hlen : len < 2 ^ 64) :
    unix_count len skip (s ++ 0 :: tail) =
      some ((len + (to_unix s).length) % 2 ^ 64, skip && !has_crlf s) := by
  induction s generalizing len skip with
  | nil =>
    simp only [List.nil_append, unix_count, if_true, to_unix, List.length_nil, Nat.add_zero,
      has_crlf, Bool.not_false, Bool.and_true, mod_size_t len hlen]
  | cons c rest ih =>
    have hc : c ≠ 0 := fun e => h (by simp [e])
    have hr : 0 ∉ rest := fun e => h (by simp [e])
    by_cases hb : is_crlf c rest = true
    · have ih1 := ih hr (((len + 2 ^ 64 - 1) % 2 ^ 64 + 1) % 2 ^ 64) false
        (Nat.mod_lt _ (by norm_num))
      rw [List.cons_append, unix_count, if_neg hc, is_crlf_append, if_pos hb, ih1, to_unix,
        if_pos hb, has_crlf, hb]
      simp only [Option.some.injEq, Prod.mk.injEq]
      constructor
      · omega
      · simp
    · have ih1 := ih hr ((len + 1) % 2 ^ 64) skip (Nat.mod_lt _ (by norm_num))
      rw [List.cons_append, unix_count, if_neg hc, is_crlf_append, if_neg hb, ih1, to_unix,
        if_neg hb, has_crlf]
      simp only [List.length_cons, Option.some.injEq, Prod.mk.injEq]
      constructor
      · omega
      · simp [hb]

/-! ## Lemmas: the two rewrites as functions on texts -/

theorem to_win_of_lf_after_cr (s : List Nat) (p : Nat) (h : lf_after_cr p s = true) :
    to_win p s = s := by
  induction s generalizing p with
  | nil => rfl
  | cons c rest ih =>
    rw [lf_after_cr, Bool.and_eq_true] at h
    have hb : ¬ (c = 10 ∧ p ≠ 13) := by
      intro e
      have := h.1
      simp [e.1, e.2] at this
    rw [to_win, if_neg hb, ih c h.2]

theorem to_unix_of_no_crlf (s : List Nat) (h : has_crlf s = false) : to_unix s = s := by
  induction s with
  | nil => rfl
  | cons c rest ih =>
    rw [has_crlf, Bool.or_eq_false_iff] at h
    rw [to_unix, h.1, ih h.2]
    simp

theorem to_unix_length_le (s : List Nat) : (to_unix s).length ≤ s.length := by
  induction s with
  | nil => simp [to_unix]
  | cons c rest ih =>
    rw [to_unix]
    split
    · simp only [List.length_cons]; omega
    · simp only [List.length_cons]; omega

theorem to_win_length_le (s : List Nat) (p : Nat) : (to_win p s).length ≤ 2 * s.length := by
  induction s generalizing p with
  | nil => simp [to_win]
  | cons c rest ih =>
    have := ih c
    rw [to_win]
    split
    · simp only [List.length_cons]; omega
    · simp only [List.length_cons]; omega

theorem to_unix_zero_free (s : List Nat) (h : 0 ∉ s) : 0 ∉ to_unix s := by
  induction s with
  | nil => simp [to_unix]
  | cons c rest ih =>
    have hc : c ≠ 0 := fun e => h (by simp [e])
    have hr : 0 ∉ rest := fun e => h (by simp [e])
    rw [to_unix]
    split
    · exact ih hr
    · simp only [List.mem_cons, not_or]
      exact ⟨fun e => hc e.symm, ih hr⟩

theorem to_win_zero_free (s : List Nat) (p : Nat) (h : 0 ∉ s) : 0 ∉ to_win p s := by
  induction s generalizing p with
  | nil => simp [to_win]
  | cons c rest ih =>
    have hc : c ≠ 0 := fun e => h (by simp [e])
    have hr : 0 ∉ rest := fun e => h (by simp [e])
    rw [to_win]
    split
    · simp only [List.mem_cons, not_or]
      exact ⟨by decide, fun e => hc e.symm, ih c hr⟩
    · simp only [List.mem_cons, not_or]
      exact ⟨fun e => hc e.symm, ih c hr⟩

theorem is_crlf_iff (c : Nat) (rest : List Nat) :
    is_crlf c rest = true ↔ c = 13 ∧ ∃ r, rest = 10 :: r := by
  cases rest with
  | nil => simp [is_crlf]
  | cons d r => simp [is_crlf]

theorem to_unix_head (s : List Nat) (h : (to_unix s).head? = some 10) :
    s.head? = some 10 ∨ has_crlf (s.take 2) = true := by
  cases s with
  | nil => simp [to_unix] at h
  | cons d r =>
    by_cases hb : is_crlf d r = true
    · right
      obtain ⟨hd, r1, hr⟩ := (is_crlf_iff d r).mp hb
      subst hd hr
      simp [has_crlf, is_crlf]
    · left
      rw [to_unix, if_neg hb] at h
      simpa using h

theorem has_crlf_to_unix_aux (n : Nat) :
    ∀ s : List Nat, s.length ≤ n → has_crcrlf s = false → has_crlf (to_unix s) = false := by
  induction n with
  | zero =>
    intro s hs _
    have : s = [] := List.length_eq_zero.mp (Nat.le_zero.mp hs)
    subst this
    rfl
  | succ n ih =>
    intro s hs h
    cases s with
    | nil => rfl
    | cons c rest =>
      rw [has_crcrlf, Bool.or_eq_false_iff] at h
      simp only [List.length_cons] at hs
      have ihr := ih rest (by omega) h.2
      by_cases hb : is_crlf c rest = true
      · rw [to_unix, if_pos hb]
        exact ihr
      · rw [to_unix, if_neg hb, has_crlf, ihr, Bool.or_false]
        by_contra hne
        have hne : is_crlf c (to_unix rest) = true := by simpa using hne
        obtain ⟨hc, r1, hr1⟩ := (is_crlf_iff c _).mp hne
        have hh : (to_unix rest).head? = some 10 := by rw [hr1]; rfl
        rcases to_unix_head rest hh with h1 | h2
        · apply hb
          cases rest with
          | nil => simp at h1
          | cons d r =>
            simp only [List.head?_cons, Option.some.injEq] at h1
            subst h1 hc
            simp [is_crlf]
        · have := h.1
          simp [hc, h2] at this

theorem has_crlf_to_unix (s : List Nat) (h : has_crcrlf s = false) :
    has_crlf (to_unix s) = false :=
  has_crlf_to_unix_aux s.length s (le_refl _) h

theorem utf16_to_utf8_cons (u : Nat) (rest : List Nat)
    (h : ¬ ((0xD800 ≤ u ∧ u ≤ 0xDBFF) ∧ ∃ lo r, rest = lo :: r ∧ 0xDC00 ≤ lo ∧ lo ≤ 0xDFFF)) :
    utf16_to_utf8 (u :: rest) = utf8_of_unit u ++ utf16_to_utf8 rest := by
  cases rest with
  | nil => simp [utf16_to_utf8]
  | cons lo r =>
    have hc : ¬ ((0xD800 ≤ u ∧ u ≤ 0xDBFF) ∧ (0xDC00 ≤ lo ∧ lo ≤ 0xDFFF)) :=
      fun e => h ⟨e.1, lo, r, rfl, e.2⟩
    rw [utf16_to_utf8, if_neg hc]

theorem utf16_to_utf8_pair (u lo : Nat) (rest : List Nat)
    (h : (0xD800 ≤ u ∧ u ≤ 0xDBFF) ∧ (0xDC00 ≤ lo ∧ lo ≤ 0xDFFF)) :
    utf16_to_utf8 (u :: lo :: rest) =
      (0xF0 + (0x10000 + (u - 0xD800) * 1024 + (lo - 0xDC00)) / 262144) ::
      (0x80 + (0x10000 + (u - 0xD800) * 1024 + (lo - 0xDC00)) / 4096 % 64) ::
      (0x80 + (0x10000 + (u - 0xD800) * 1024 + (lo - 0xDC00)) / 64 % 64) ::
      (0x80 + (0x10000 + (u - 0xD800) * 1024 + (lo - 0xDC00)) % 64) :: utf16_to_utf8 rest := by
  rw [utf16_to_utf8, if_pos h]

theorem utf8_decode_start (b : Nat) (rest : List Nat) (acc lo hi : Nat) :
    utf8_decode 0 acc lo hi (b :: rest) =
      if b < 0x80 then (utf8_decode 0 0 0x80 0xBF rest).map (fun us => b :: us)
      else if b < 0xC2 then none
      else if b < 0xE0 then utf8_decode 1 (b - 0xC0) 0x80 0xBF rest
      else if b < 0xF0 then
        utf8_decode 2 (b - 0xE0) (if b = 0xE0 then 0xA0 else 0x80)
          (if b = 0xED then 0x9F else 0xBF) rest
      else if b < 0xF5 then
        utf8_decode 3 (b - 0xF0) (if b = 0xF0 then 0x90 else 0x80)
          (if b = 0xF4 then 0x8F else 0xBF) rest
      else none := by
  rw [utf8_decode, if_pos rfl]

theorem utf16_to_utf8_induction (P : List Nat → Prop) (h0 : P [])
    (h1 : ∀ u rest,
      ¬ ((0xD800 ≤ u ∧ u ≤ 0xDBFF) ∧ ∃ lo r, rest = lo :: r ∧ 0xDC00 ≤ lo ∧ lo ≤ 0xDFFF) →
      P rest → P (u :: rest))
    (h2 : ∀ u lo rest, (0xD800 ≤ u ∧ u ≤ 0xDBFF) ∧ (0xDC00 ≤ lo ∧ lo ≤ 0xDFFF) →
      P rest → P (u :: lo :: rest)) :
    ∀ t, P t := by
  have main : ∀ n : Nat, ∀ t : List Nat, t.length ≤ n → P t := by
    intro n
    induction n with
    | zero =>
      intro t ht
      have : t = [] := List.length_eq_zero.mp (Nat.le_zero.mp ht)
      subst this
      exact h0
    | succ n ih =>
      intro t ht
      cases t with
      | nil => exact h0
      | cons u rest =>
        simp only [List.length_cons] at ht
        by_cases hp : (0xD800 ≤ u ∧ u ≤ 0xDBFF) ∧
            ∃ lo r, rest = lo :: r ∧ 0xDC00 ≤ lo ∧ lo ≤ 0xDFFF
        · obtain ⟨hu, lo, r, hr, hlo⟩ := hp
          subst hr
          simp only [List.length_cons] at ht
          exact h2 u lo r ⟨hu, hlo⟩ (ih r (by omega))
        · exact h1 u rest hp (ih rest (by omega))
  intro t
  exact main t.length t (le_refl _)

theorem utf8_of_unit_bytes (u : Nat) :
    (u < 0x80 ∧ utf8_of_unit u = [u]) ∨
    (0x80 ≤ u ∧ ∃ b0 rest, utf8_of_unit u = b0 :: rest ∧ 0x80 ≤ b0 ∧ (∀ b ∈ rest, 0x80 ≤ b) ∧
      rest.length ≤ 2) := by
  unfold utf8_of_unit
  by_cases h1 : u < 0x80
  · left
    exact ⟨h1, by rw [if_pos h1]⟩
  · right
    refine ⟨by omega, ?_⟩
    rw [if_neg h1]
    split
    · exact ⟨_, _, rfl, by omega, by simp, by simp⟩
    · split
      · exact ⟨_, _, rfl, by omega, by simp, by simp⟩
      · exact ⟨_, _, rfl, by omega, by simp, by simp⟩

theorem utf16_to_utf8_length_le (t : List Nat) : (utf16_to_utf8 t).length ≤ 3 * t.length := by
  refine utf16_to_utf8_induction (fun t => (utf16_to_utf8 t).length ≤ 3 * t.length)
    (by simp [utf16_to_utf8]) ?_ ?_ t
  · intro u rest hp ih
    rw [utf16_to_utf8_cons u rest hp, List.length_append, List.length_cons]
    rcases utf8_of_unit_bytes u with ⟨-, e⟩ | ⟨-, b0, r, e, -, -, hl⟩
    · rw [e]; simp only [List.length_singleton]; omega
    · rw [e]; simp only [List.length_cons]; omega
  · intro u lo rest hp ih
    rw [utf16_to_utf8_pair u lo rest hp]
    simp only [List.length_cons]
    omega

theorem utf16_to_utf8_ne_nil (t : List Nat) (h : t ≠ []) : utf16_to_utf8 t ≠ [] := by
  cases t with
  | nil => exact absurd rfl h
  | cons u rest =>
    by_cases hp : (0xD800 ≤ u ∧ u ≤ 0xDBFF) ∧
        ∃ lo r, rest = lo :: r ∧ 0xDC00 ≤ lo ∧ lo ≤ 0xDFFF
    · obtain ⟨hu, lo, r, hr, hlo⟩ := hp
      subst hr
      rw [utf16_to_utf8_pair u lo r ⟨hu, hlo⟩]
      simp
    · rw [utf16_to_utf8_cons u rest hp]
      rcases utf8_of_unit_bytes u with ⟨-, e⟩ | ⟨-, b0, r, e, -, -, -⟩
      · rw [e]; simp
      · rw [e]; simp

theorem utf16_to_utf8_crlf (t : List Nat) :
    has_crlf (utf16_to_utf8 t) = has_crlf t ∧
    ((utf16_to_utf8 t).head? = some 10 ↔ t.head? = some 10) := by
  refine utf16_to_utf8_induction
    (fun t => has_crlf (utf16_to_utf8 t) = has_crlf t ∧
      ((utf16_to_utf8 t).head? = some 10 ↔ t.head? = some 10))
    (by simp [utf16_to_utf8]) ?_ ?_ t
  · intro u rest hp ih
    rw [utf16_to_utf8_cons u rest hp]
    rcases utf8_of_unit_bytes u with ⟨hu, e⟩ | ⟨hu, b0, r, e, hb0, hbr, hl⟩
    · rw [e]
      rw [List.singleton_append]
      simp only [has_crlf, is_crlf, ih.1, ih.2, List.head?_cons, Option.some.injEq, and_true]
    · rw [e]
      have hu13 : u ≠ 13 := by omega
      have hb13 : b0 ≠ 13 := by omega
      constructor
      · simp only [List.cons_append, has_crlf, is_crlf, hu13, hb13, false_and, decide_False,
          Bool.false_or]
        rw [← ih.1]
        clear e hl
        induction r with
        | nil => rfl
        | cons b r ihr =>
          have hb : b ≠ 13 := by
            have := hbr b (by simp)
            omega
          simp only [List.cons_append, has_crlf, is_crlf, hb, false_and, decide_False,
            Bool.false_or]
          exact ihr (fun x hx => hbr x (by simp [hx]))
      · simp only [List.cons_append, List.head?_cons, Option.some.injEq]
        constructor
        · intro e10; omega
        · intro e10; omega
  · intro u lo rest hp ih
    rw [utf16_to_utf8_pair u lo rest hp]
    constructor
    · have hu13 : u ≠ 13 := by omega
      have hlo13 : lo ≠ 13 := by omega
      simp only [has_crlf, is_crlf, hu13, hlo13, false_and, decide_False, Bool.false_or, ih.1]
      have a0 : ¬ (240 + (65536 + (u - 55296) * 1024 + (lo - 56320)) / 262144 = 13) := by omega
      have a1 : ¬ (128 + (65536 + (u - 55296) * 1024 + (lo - 56320)) / 4096 % 64 = 13) := by
        omega
      have a2 : ¬ (128 + (65536 + (u - 55296) * 1024 + (lo - 56320)) / 64 % 64 = 13) := by
        omega
      have a3 : ¬ (128 + (65536 + (u - 55296) * 1024 + (lo - 56320)) % 64 = 13) := by omega
      simp only [a0, a1, a2, a3, false_and, decide_False, Bool.false_or]
    · simp only [List.head?_cons, Option.some.injEq]
      constructor
      · intro e10; omega
      · intro e10; omega

/-! ## Lemmas: what the decoder produces -/

theorem units_of_cp_props (cp : Nat) (h1 : 1 ≤ cp) (h2 : cp < 1310720) :
    (∀ u ∈ units_of_cp cp, u < 65536) ∧ 0 ∉ units_of_cp cp ∧ (units_of_cp cp).length ≤ 2 := by
  unfold units_of_cp
  split
  · refine ⟨?_, ?_, by simp⟩
    · intro u hu
      simp only [List.mem_singleton] at hu
      omega
    · simp only [List.mem_singleton]
      omega
  · refine ⟨?_, ?_, by simp⟩
    · intro u hu
      simp only [List.mem_cons, List.mem_singleton, List.not_mem_nil, or_false] at hu
      rcases hu with hu | hu <;> omega
    · simp only [List.mem_cons, List.mem_singleton, List.not_mem_nil, or_false, not_or]
      constructor <;> omega

theorem utf8_decode_props (bs : List Nat) :
    ∀ (need acc lo hi : Nat) (us : List Nat), decode_state_ok need acc lo hi →
      utf8_decode need acc lo hi bs = some us →
      (∀ u ∈ us, u < 65536) ∧ (0 ∉ bs → 0 ∉ us) ∧
      (if need = 0 then us.length ≤ bs.length else us.length + need ≤ bs.length + 2) := by
  induction bs with
  | nil =>
    intro need acc lo hi us _ h
    rw [utf8_decode] at h
    split at h
    · rename_i hn
      simp only [Option.some.injEq] at h
      subst h
      simp [hn]
    · exact absurd h (by simp)
  | cons b rest ih =>
    intro need acc lo hi us hok h
    obtain ⟨hhi, hlo, hst⟩ := hok
    have ok0 : decode_state_ok 0 0 0x80 0xBF := ⟨by omega, by omega, Or.inl rfl⟩
    by_cases hn : need = 0
    · subst hn
      rw [utf8_decode_start] at h
      simp only [if_true]
      split at h
      · rename_i hb
        obtain ⟨us1, h1, e⟩ := Option.map_eq_some'.mp h
        subst e
        obtain ⟨p1, p2, p3⟩ := ih 0 0 0x80 0xBF us1 ok0 h1
        simp only [if_true] at p3
        refine ⟨?_, ?_, ?_⟩
        · intro u hu
          rcases List.mem_cons.mp hu with hu | hu
          · omega
          · exact p1 u hu
        · intro hz
          have hb0 : b ≠ 0 := fun e => hz (by simp [e])
          have hr : 0 ∉ rest := fun e => hz (by simp [e])
          simp only [List.mem_cons, not_or]
          exact ⟨fun e => hb0 e.symm, p2 hr⟩
        · simp only [List.length_cons]; omega
      · split at h
        · exact absurd h (by simp)
        · split at h
          · have ok : decode_state_ok 1 (b - 0xC0) 0x80 0xBF :=
              ⟨by omega, by omega, Or.inr ⟨by omega, by omega⟩⟩
            obtain ⟨p1, p2, p3⟩ := ih _ _ _ _ us ok h
            simp only [show ¬ (1 = 0) by decide, if_false] at p3
            refine ⟨p1, fun hz => p2 (fun e => hz (by simp [e])), ?_⟩
            simp only [List.length_cons]; omega
          · split at h
            · have ok : decode_state_ok 2 (b - 0xE0) (if b = 0xE0 then 0xA0 else 0x80)
                  (if b = 0xED then 0x9F else 0xBF) := by
                refine ⟨by split_ifs <;> omega, by split_ifs <;> omega,
                  Or.inr ⟨?_, by omega⟩⟩
                split_ifs <;> omega
              obtain ⟨p1, p2, p3⟩ := ih _ _ _ _ us ok h
              simp only [show ¬ (2 = 0) by decide, if_false] at p3
              refine ⟨p1, fun hz => p2 (fun e => hz (by simp [e])), ?_⟩
              simp only [List.length_cons]; omega
            · split at h
              · have ok : decode_state_ok 3 (b - 0xF0) (if b = 0xF0 then 0x90 else 0x80)
                    (if b = 0xF4 then 0x8F else 0xBF) := by
                  refine ⟨by split_ifs <;> omega, by split_ifs <;> omega,
                    Or.inr ⟨?_, by omega⟩⟩
                  split_ifs <;> omega
                obtain ⟨p1, p2, p3⟩ := ih _ _ _ _ us ok h
                simp only [show ¬ (3 = 0) by decide, if_false] at p3
                refine ⟨p1, fun hz => p2 (fun e => hz (by simp [e])), ?_⟩
                simp only [List.length_cons]; omega
              · exact absurd h (by simp)
    · rw [utf8_decode, if_neg hn] at h
      simp only [hn, if_false]
      have hst2 := hst.resolve_left hn
      split at h
      · rename_i hb
        split at h
        · rename_i h1
          obtain ⟨us1, hd, e⟩ := Option.map_eq_some'.mp h
          subst e
          obtain ⟨p1, p2, p3⟩ := ih 0 0 0x80 0xBF us1 ok0 hd
          simp only [if_true] at p3
          obtain ⟨q1, q2, q3⟩ := units_of_cp_props (acc * 64 + (b - 0x80)) (by omega) (by omega)
          refine ⟨?_, ?_, ?_⟩
          · intro u hu
            rcases List.mem_append.mp hu with hu | hu
            · exact q1 u hu
            · exact p1 u hu
          · intro hz
            have hr : 0 ∉ rest := fun e => hz (by simp [e])
            intro hm
            rcases List.mem_append.mp hm with hm | hm
            · exact q2 hm
            · exact p2 hr hm
          · simp only [List.length_append, List.length_cons]; omega
        · rename_i h1
          have ok : decode_state_ok (need - 1) (acc * 64 + (b - 0x80)) 0x80 0xBF :=
            ⟨by omega, by omega, Or.inr ⟨by omega, by omega⟩⟩
          obtain ⟨p1, p2, p3⟩ := ih _ _ _ _ us ok h
          have hn1 : ¬ (need - 1 = 0) := by omega
          simp only [hn1, if_false] at p3
          refine ⟨p1, fun hz => p2 (fun e => hz (by simp [e])), ?_⟩
          simp only [List.length_cons]; omega
      · exact absurd h (by simp)

theorem utf8_to_utf16_props (bs us : List Nat) (h : utf8_to_utf16 bs = some us) :
    (∀ u ∈ us, u < 65536) ∧ (0 ∉ bs → 0 ∉ us) ∧ us.length ≤ bs.length := by
  have := utf8_decode_props bs 0 0 0x80 0xBF us ⟨by omega, by omega, Or.inl rfl⟩ h
  simpa using this

/-! ## Lemmas: bytes and units -/

theorem bytes_of_units_append (a b : List Nat) :
    bytes_of_units (a ++ b) = bytes_of_units a ++ bytes_of_units b := by
  induction a with
  | nil => rfl
  | cons u rest ih => simp [bytes_of_units, ih]

theorem bytes_of_units_length (l : List Nat) : (bytes_of_units l).length = 2 * l.length := by
  induction l with
  | nil => rfl
  | cons u rest ih => simp only [bytes_of_units, List.length_cons, ih]; omega

theorem bytes_of_units_lt (l : List Nat) : ∀ b ∈ bytes_of_units l, b < 256 := by
  induction l with
  | nil => simp [bytes_of_units]
  | cons u rest ih =>
    intro b hb
    simp only [bytes_of_units, List.mem_cons] at hb
    rcases hb with hb | hb | hb
    · omega
    · omega
    · exact ih b hb

theorem units_of_bytes_bytes_of_units (l tail : List Nat) (h : ∀ u ∈ l, u < 65536) :
    units_of_bytes (bytes_of_units l ++ tail) = l ++ units_of_bytes tail := by
  induction l with
  | nil => rfl
  | cons u rest ih =>
    have hu : u < 65536 := h u (by simp)
    have hr : ∀ x ∈ rest, x < 65536 := fun x hx => h x (by simp [hx])
    have e : u % 256 + 256 * (u / 256 % 256) = u := by omega
    rw [bytes_of_units, List.cons_append, List.cons_append, units_of_bytes, ih hr, e,
      List.cons_append]

theorem units_of_bytes_bytes_of_units_nil (l : List Nat) (h : ∀ u ∈ l, u < 65536) :
    units_of_bytes (bytes_of_units l) = l := by
  have := units_of_bytes_bytes_of_units l [] h
  simpa [units_of_bytes] using this

theorem units_of_bytes_props_aux (n : Nat) :
    ∀ bs : List Nat, bs.length ≤ n →
      ((∀ b ∈ bs, b < 256) → ∀ u ∈ units_of_bytes bs, u < 65536) ∧
      2 * (units_of_bytes bs).length ≤ bs.length ∧
      units_of_bytes (bs.drop 2) = (units_of_bytes bs).drop 1 := by
  induction n with
  | zero =>
    intro bs hbs
    have : bs = [] := List.length_eq_zero.mp (Nat.le_zero.mp hbs)
    subst this
    simp [units_of_bytes]
  | succ n ih =>
    intro bs hbs
    match bs with
    | [] => simp [units_of_bytes]
    | [b] => simp [units_of_bytes]
    | b0 :: b1 :: rest =>
      simp only [List.length_cons] at hbs
      obtain ⟨i1, i2, -⟩ := ih rest (by omega)
      refine ⟨?_, ?_, ?_⟩
      · intro hb u hu
        simp only [units_of_bytes, List.mem_cons] at hu
        rcases hu with hu | hu
        · have h0 := hb b0 (by simp)
          have h1 := hb b1 (by simp)
          omega
        · exact i1 (fun x hx => hb x (by simp [hx])) u hu
      · simp only [units_of_bytes, List.length_cons]; omega
      · simp [units_of_bytes]

theorem units_of_bytes_lt (bs : List Nat) (h : ∀ b ∈ bs, b < 256) :
    ∀ u ∈ units_of_bytes bs, u < 65536 :=
  (units_of_bytes_props_aux bs.length bs (le_refl _)).1 h

theorem units_of_bytes_length_le (bs : List Nat) : 2 * (units_of_bytes bs).length ≤ bs.length :=
  (units_of_bytes_props_aux bs.length bs (le_refl _)).2.1

theorem units_of_bytes_drop_two (bs : List Nat) :
    units_of_bytes (bs.drop 2) = (units_of_bytes bs).drop 1 :=
  (units_of_bytes_props_aux bs.length bs (le_refl _)).2.2

theorem bytes_of_units_take (l : List Nat) (k : Nat) :
    (bytes_of_units l).take (2 * k) = bytes_of_units (l.take k) := by
  induction l generalizing k with
  | nil => simp [bytes_of_units]
  | cons u rest ih =>
    cases k with
    | zero => simp [bytes_of_units]
    | succ k =>
      have : 2 * (k + 1) = 2 * k + 1 + 1 := by omega
      rw [this]
      simp only [bytes_of_units, List.take_succ_cons, ih]

theorem mem_to_unix (s : List Nat) : ∀ u ∈ to_unix s, u ∈ s := by
  induction s with
  | nil => simp [to_unix]
  | cons c rest ih =>
    intro u hu
    rw [to_unix] at hu
    split at hu
    · exact List.mem_cons_of_mem _ (ih u hu)
    · rcases List.mem_cons.mp hu with hu | hu
      · simp [hu]
      · exact List.mem_cons_of_mem _ (ih u hu)

theorem cstr_eq_some (l s : List Nat) (h : cstr l = some s) :
    0 ∉ s ∧ ∃ tail, l = s ++ 0 :: tail := by
  induction l generalizing s with
  | nil => simp [cstr] at h
  | cons c rest ih =>
    rw [cstr] at h
    split at h
    · rename_i hc
      simp only [Option.some.injEq] at h
      subst h hc
      exact ⟨by simp, rest, rfl⟩
    · rename_i hc
      obtain ⟨s1, h1, e⟩ := Option.map_eq_some'.mp h
      subst e
      obtain ⟨hz, tail, ht⟩ := ih s1 h1
      refine ⟨?_, tail, by rw [ht]; rfl⟩
      simp only [List.mem_cons, not_or]
      exact ⟨fun e => hc e.symm, hz⟩

theorem has_crlf_append_zero (t : List Nat) (hz : 0 ∉ t) :
    has_crlf (t ++ [0]) = has_crlf t := by
  induction t with
  | nil => simp [has_crlf, is_crlf]
  | cons c rest ih =>
    have hr : 0 ∉ rest := fun e => hz (by simp [e])
    rw [List.cons_append, has_crlf, has_crlf, ih hr]
    congr 1
    cases rest <;> simp [is_crlf]

/-! ## Lemmas: the stages of `convert` -/

theorem convert_linebreak_next (inter : Inter) (t tail : List Nat) (to_ : format)
    (hz : 0 ∉ t) (hmem : inter.mem = t ++ 0 :: tail)
    (hlen : (relined_text to_.linebreak t).length + 1 < 2 ^ 63) :
    (convert_linebreak inter to_ = some (Stage.next inter []) ∧
      relined_text to_.linebreak t = t) ∨
    convert_linebreak inter to_ =
      some (Stage.next
        { mem := relined_text to_.linebreak t ++ [0],
          size := ((relined_text to_.linebreak t).length + 1) * 2,
          should_free := true, block := .relined }
        (if inter.should_free then [inter.block] else [])) := by
  unfold convert_linebreak
  cases hlb : to_.linebreak with
  | LINEBREAK_WIN =>
    rw [hlb] at hlen
    simp only [relined_text] at hlen ⊢
    rw [hmem, win_count_eq t tail hz 0 0 0 0 true (by simp) (by norm_num)]
    simp only [Option.some_bind, Nat.zero_add, Bool.true_and]
    by_cases hs : lf_after_cr 0 t = true
    · left
      rw [if_pos hs]
      exact ⟨rfl, to_win_of_lf_after_cr t 0 hs⟩
    · right
      rw [if_neg hs, win_write_eq t tail hz 0 0 0 (by simp)]
      simp only [Option.some_bind, reline, List.length_append, List.length_singleton]
      have e1 : (to_win 0 t).length % 2 ^ 64 = (to_win 0 t).length :=
        Nat.mod_eq_of_lt (by omega)
      have e2 : ((to_win 0 t).length + 1) * 2 % 2 ^ 64 = ((to_win 0 t).length + 1) * 2 :=
        Nat.mod_eq_of_lt (by omega)
      rw [e1, e2, if_neg (by omega)]
  | LINEBREAK_UNIX =>
    rw [hlb] at hlen
    simp only [relined_text] at hlen ⊢
    rw [hmem, unix_count_eq t tail hz 0 true (by norm_num)]
    simp only [Option.some_bind, Nat.zero_add, Bool.true_and]
    by_cases hs : has_crlf t = true
    · right
      have hs2 : (!has_crlf t) = false := by simp [hs]
      rw [hs2, if_neg (by simp), unix_write_eq t tail hz]
      simp only [Option.some_bind, reline, List.length_append, List.length_singleton]
      have e1 : (to_unix t).length % 2 ^ 64 = (to_unix t).length :=
        Nat.mod_eq_of_lt (by omega)
      have e2 : ((to_unix t).length + 1) * 2 % 2 ^ 64 = ((to_unix t).length + 1) * 2 :=
        Nat.mod_eq_of_lt (by omega)
      rw [e1, e2, if_neg (by omega)]
    · left
      have hs1 : has_crlf t = false := by simpa using hs
      have hs2 : (!has_crlf t) = true := by simp [hs1]
      rw [hs2, if_pos rfl]
      exact ⟨rfl, to_unix_of_no_crlf t hs1⟩

theorem relined_text_zero_free (lb : linebreak) (t : List Nat) (hz : 0 ∉ t) :
    0 ∉ relined_text lb t := by
  cases lb with
  | LINEBREAK_WIN => exact to_win_zero_free t 0 hz
  | LINEBREAK_UNIX => exact to_unix_zero_free t hz

theorem convert_linebreak_holds (inter : Inter) (t : List Nat) (to_ : format)
    (hin : inter_holds inter t) (hlen : (relined_text to_.linebreak t).length + 1 < 2 ^ 63) :
    ∃ inter2 f2, convert_linebreak inter to_ = some (Stage.next inter2 f2) ∧
      inter_holds inter2 (relined_text to_.linebreak t) := by
  obtain ⟨hz, ⟨tail, hmem⟩, hsz⟩ := hin
  rcases convert_linebreak_next inter t tail to_ hz hmem hlen with ⟨h, e⟩ | h
  · refine ⟨inter, [], h, ?_⟩
    rw [e]
    exact ⟨hz, ⟨tail, hmem⟩, hsz⟩
  · exact ⟨_, _, h, relined_text_zero_free _ t hz, ⟨[], rfl⟩, rfl⟩

theorem bom_bytes_length (to_ : format) :
    (bom_bytes (if to_.bom then get_bom to_.encoding.toInt else bom_zero)).length =
      (if to_.bom then get_bom to_.encoding.toInt else bom_zero).size := by
  cases to_ with
  | mk e l b => cases e <;> cases b <;> rfl

theorem bom_size_le (to_ : format) :
    (if to_.bom then get_bom to_.encoding.toInt else bom_zero).size ≤ 3 := by
  cases to_ with
  | mk e l b => cases e <;> cases b <;> simp [get_bom, bom_zero, encoding.toInt]

theorem memcpy_read_text (t tail : List Nat) (extra : List Nat) (n : Nat)
    (hex : extra = [] ∨ extra = [0]) (hn : n = 2 * (t.length + extra.length)) :
    memcpy_read (bytes_of_units (t ++ 0 :: tail)) n = some (bytes_of_units (t ++ extra)) := by
  subst hn
  have hlen : ¬ (bytes_of_units (t ++ 0 :: tail)).length < 2 * (t.length + extra.length) := by
    rw [bytes_of_units_length]
    simp only [List.length_append, List.length_cons]
    rcases hex with e | e <;> subst e <;> simp
  unfold memcpy_read
  rw [if_neg hlen, bytes_of_units_take]
  congr 2
  rcases hex with e | e <;> subst e
  · simp
  · rw [List.take_append_eq_append_take]
    simp [List.take_of_length_le]

theorem WideCharToMultiByte_text (t tail : List Nat) (extra : List Nat) (n : Nat)
    (hex : extra = [] ∨ extra = [0]) (hn : n = t.length + extra.length) (h0 : n ≠ 0)
    (hlt : n < 2 ^ 31) :
    WideCharToMultiByte (t ++ 0 :: tail) n = some (utf16_to_utf8 (t ++ extra)) := by
  subst hn
  have h1 : ¬ (t.length + extra.length = 2 ^ 64 - 1) := by omega
  have h2 : ¬ (t ++ 0 :: tail).length < t.length + extra.length := by
    simp only [List.length_append, List.length_cons]
    rcases hex with e | e <;> subst e <;> simp
  unfold WideCharToMultiByte
  rw [if_neg h0, if_neg h1, if_pos hlt, if_neg h2]
  congr 2
  rcases hex with e | e <;> subst e
  · simp
  · rw [List.take_append_eq_append_take]
    simp [List.take_of_length_le]

theorem convert_encode_holds (inter : Inter) (t : List Nat) (to_ : format) (nullterm : Bool)
    (hin : inter_holds inter t) (hlen : t.length + 1 < 2 ^ 31) :
    ∃ inter3 f3, convert_encode inter to_ nullterm = some (Stage.next inter3 f3) ∧
      inter3.mem = encoded_bytes to_ nullterm t ∧
      inter3.size = (encoded_bytes to_ nullterm t).length ∧ inter3.should_free = false := by
  obtain ⟨hz, ⟨tail, hmem⟩, hsz⟩ := hin
  have hb := bom_bytes_length to_
  have hb3 := bom_size_le to_
  have hlen2 : t.length + 1 < 2147483648 := by
    have : (2 : Nat) ^ 31 = 2147483648 := by norm_num
    omega
  unfold convert_encode encoded_bytes
  cases henc : to_.encoding with
  | ENCODING_UTF16 =>
    rw [henc] at hb hb3
    simp only [hsz, hmem]
    cases nullterm with
    | true =>
      have e1 : ((t.length + 1) * 2 + 2 ^ 64 - 0 * 2) % 2 ^ 64 = 2 * (t.length + 1) := by omega
      have hrd := memcpy_read_text t tail [0] (2 * (t.length + 1)) (Or.inr rfl) rfl
      simp only [if_true, e1, hrd, Option.map_some']
      refine ⟨_, _, rfl, rfl, ?_, rfl⟩
      simp only [List.length_append, hb, bytes_of_units_length, List.length_singleton]
      omega
    | false =>
      have e1 : ((t.length + 1) * 2 + 2 ^ 64 - 1 * 2) % 2 ^ 64 = 2 * t.length := by omega
      have hrd := memcpy_read_text t tail [] (2 * t.length) (Or.inl rfl) rfl
      rw [List.append_nil] at hrd
      simp only [Bool.false_eq_true, if_false, e1, hrd, Option.map_some']
      refine ⟨_, _, rfl, rfl, ?_, rfl⟩
      simp only [List.length_append, hb, bytes_of_units_length]
      omega
  | ENCODING_UTF8 =>
    rw [henc] at hb hb3
    simp only [hsz, hmem]
    cases t with
    | nil =>
      simp only [List.nil_append, if_true]
      refine ⟨_, _, rfl, rfl, ?_, rfl⟩
      cases nullterm <;> rfl
    | cons c rest =>
      have hc : c ≠ 0 := fun e => hz (by simp [e])
      rw [List.cons_append]
      simp only [hc, if_false, reduceCtorEq]
      rw [← List.cons_append]
      simp only [List.length_cons] at hlen2
      cases nullterm with
      | true =>
        have e1 : (((c :: rest).length + 1) * 2 / 2 + 2 ^ 64 - 0) % 2 ^ 64 =
            (c :: rest).length + 1 := by
          simp only [List.length_cons]; omega
        have hw := WideCharToMultiByte_text (c :: rest) tail [0] ((c :: rest).length + 1)
          (Or.inr rfl) rfl (by omega) (by simp only [List.length_cons]; omega)
        simp only [if_true, e1, hw, Option.map_some']
        have hne : (utf16_to_utf8 (c :: rest ++ [0])).length ≠ 0 := by
          intro e
          exact utf16_to_utf8_ne_nil (c :: rest ++ [0]) (by simp) (List.length_eq_zero.mp e)
        have hle := utf16_to_utf8_length_le (c :: rest ++ [0])
        simp only [List.length_append, List.length_singleton, List.length_cons,
          List.length_nil] at hle
        rw [if_neg hne]
        refine ⟨_, _, rfl, rfl, ?_, rfl⟩
        simp only [List.length_append, hb]
        rw [Nat.mod_eq_of_lt (by omega)]
        omega
      | false =>
        have e1 : (((c :: rest).length + 1) * 2 / 2 + 2 ^ 64 - 1) % 2 ^ 64 =
            (c :: rest).length := by
          simp only [List.length_cons]; omega
        have hw := WideCharToMultiByte_text (c :: rest) tail [] ((c :: rest).length)
          (Or.inl rfl) rfl (by simp) (by simp only [List.length_cons]; omega)
        rw [List.append_nil] at hw
        simp only [Bool.false_eq_true, if_false, e1, hw, Option.map_some']
        have hne : (utf16_to_utf8 (c :: rest)).length ≠ 0 := by
          intro e
          exact utf16_to_utf8_ne_nil (c :: rest) (by simp) (List.length_eq_zero.mp e)
        have hle := utf16_to_utf8_length_le (c :: rest)
        simp only [List.length_cons] at hle
        rw [if_neg hne]
        refine ⟨_, _, rfl, rfl, ?_, rfl⟩
        simp only [List.length_append, hb]
        rw [Nat.mod_eq_of_lt (by omega)]
        omega

theorem convert_of_decode (src : List Nat) (from_ to_ : format) (nullterm sf : Bool)
    (inter : Inter) (f : List Block) (t : List Nat)
    (hdec : convert_decode src from_ = some (Stage.next inter f))
    (hin : inter_holds inter t) (hlen : (relined_text to_.linebreak t).length + 1 < 2 ^ 31) :
    ∃ freed, convert src from_ to_ nullterm sf =
      some
        { ret := some (encoded_bytes to_ nullterm (relined_text to_.linebreak t)),
          new_size := (encoded_bytes to_ nullterm (relined_text to_.linebreak t)).length,
          freed := freed } := by
  obtain ⟨inter2, f2, h2, hin2⟩ := convert_linebreak_holds inter t to_ hin (by omega)
  obtain ⟨inter3, f3, h3, hm3, hs3, hf3⟩ := convert_encode_holds inter2 _ to_ nullterm hin2 hlen
  unfold convert
  rw [hdec]
  simp only [Option.some_bind, h2, h3, convert_quit, hf3, hm3, hs3, Bool.false_eq_true,
    if_false, Option.map_some']
  exact ⟨_, rfl⟩

/-! ## Lemmas: the decode stage -/

theorem two_pow_31 : (2 : Nat) ^ 31 = 2147483648 := by norm_num

theorem two_pow_30 : (2 : Nat) ^ 30 = 1073741824 := by norm_num

theorem bom_bytes_utf16 : bom_bytes (get_bom encoding.ENCODING_UTF16.toInt) = bytes_of_units [0xFEFF] := by
  decide

theorem convert_decode_utf16 (bom_flag : Bool) (lb : linebreak) (t tail : List Nat)
    (hu : ∀ u ∈ t, u < 65536) (hz : 0 ∉ t) (hlen : t.length + 1 < 2 ^ 31) :
    ∃ inter f,
      convert_decode
        (bom_bytes (if bom_flag then get_bom encoding.ENCODING_UTF16.toInt else bom_zero) ++
          bytes_of_units (t ++ [0]) ++ tail)
        ⟨.ENCODING_UTF16, lb, bom_flag⟩ = some (Stage.next inter f) ∧ inter_holds inter t := by
  rw [two_pow_31] at hlen
  have hu0 : ∀ u ∈ t ++ [0], u < 65536 := by
    intro u h
    rcases List.mem_append.mp h with h | h
    · exact hu u h
    · simp only [List.mem_singleton] at h; omega
  unfold convert_decode
  cases bom_flag with
  | false =>
    simp only [Bool.false_eq_true, if_false, bom_zero, bom_bytes, List.take_zero,
      List.nil_append, List.drop_zero]
    rw [units_of_bytes_bytes_of_units _ _ hu0, List.append_assoc, List.singleton_append]
    simp only [lstrlenW, cstr_append t _ hz, Option.map_some']
    refine ⟨_, _, rfl, hz, ⟨_, rfl⟩, ?_⟩
    simp only
    omega
  | true =>
    simp only [if_true, bom_bytes_utf16]
    have hs : (get_bom encoding.ENCODING_UTF16.toInt).size = 2 := by decide
    have hd : (bytes_of_units [0xFEFF] ++ bytes_of_units (t ++ [0]) ++ tail).drop 2 =
        bytes_of_units (t ++ [0]) ++ tail := by
      simp [bytes_of_units]
    rw [hs, hd, units_of_bytes_bytes_of_units _ _ hu0, ← bytes_of_units_append,
      units_of_bytes_bytes_of_units _ _ (by
        intro u h
        rcases List.mem_append.mp h with h | h
        · simp only [List.mem_singleton] at h; omega
        · exact hu0 u h)]
    have hc : cstr (0xFEFF :: (t ++ 0 :: units_of_bytes tail)) = some (0xFEFF :: t) :=
      cstr_append (0xFEFF :: t) (units_of_bytes tail) (by
        simp only [List.mem_cons, not_or]
        exact ⟨by decide, hz⟩)
    simp only [List.append_assoc, List.singleton_append, List.cons_append, List.nil_append,
      lstrlenW, hc, Option.map_some']
    refine ⟨_, _, rfl, hz, ⟨_, rfl⟩, ?_⟩
    simp only [List.length_cons]
    omega

theorem wide_string_eq (s : List Nat) : wide_string s = encoded_bytes Internal_format true s := by
  simp [wide_string, encoded_bytes, Internal_format, bom_bytes, bom_zero]

theorem has_crlf_cons_other (c : Nat) (l : List Nat) (h : c ≠ 13) :
    has_crlf (c :: l) = has_crlf l := by
  simp [has_crlf, is_crlf, h]

theorem encoded_bytes_no_crlf (to_ : format) (nullterm : Bool) (t : List Nat)
    (hu : ∀ u ∈ t, u < 65536) (hz : 0 ∉ t) (hno : has_crlf t = false) :
    has_crlf (output_text to_.encoding (encoded_bytes to_ nullterm t)) = false := by
  have hx : has_crlf (if nullterm then t ++ [0] else t) = false := by
    cases nullterm with
    | true => simpa [has_crlf_append_zero t hz] using hno
    | false => simpa using hno
  have hxu : ∀ u ∈ (if nullterm then t ++ [0] else t), u < 65536 := by
    intro u h
    cases nullterm with
    | true =>
      simp only [if_true] at h
      rcases List.mem_append.mp h with h | h
      · exact hu u h
      · simp only [List.mem_singleton] at h; omega
    | false => exact hu u (by simpa using h)
  cases to_ with
  | mk e lb b =>
    cases e with
    | ENCODING_UTF16 =>
      simp only [output_text, encoded_bytes]
      cases b with
      | false =>
        simp only [Bool.false_eq_true, if_false, bom_zero, bom_bytes, List.take_zero,
          List.nil_append]
        rw [units_of_bytes_bytes_of_units_nil _ hxu]
        exact hx
      | true =>
        simp only [if_true, bom_bytes_utf16]
        rw [← bytes_of_units_append, units_of_bytes_bytes_of_units_nil _ (by
          intro u h
          rcases List.mem_append.mp h with h | h
          · simp only [List.mem_singleton] at h; omega
          · exact hxu u h)]
        rw [List.singleton_append, has_crlf_cons_other _ _ (by decide)]
        exact hx
    | ENCODING_UTF8 =>
      simp only [output_text, encoded_bytes]
      split
      · cases nullterm <;> rfl
      · have hy := (utf16_to_utf8_crlf (if nullterm then t ++ [0] else t)).1
        rw [hx] at hy
        cases b with
        | false =>
          simp only [Bool.false_eq_true, if_false, bom_zero, bom_bytes, List.take_zero,
            List.nil_append]
          exact hy
        | true =>
          have hb : bom_bytes (get_bom encoding.ENCODING_UTF8.toInt) = [0xEF, 0xBB, 0xBF] := by
            decide
          simp only [if_true, hb, List.cons_append, List.nil_append]
          rw [has_crlf_cons_other _ _ (by decide), has_crlf_cons_other _ _ (by decide),
            has_crlf_cons_other _ _ (by decide)]
          exact hy

theorem mem_of_mem_drop (l : List Nat) (k : Nat) (x : Nat) (h : x ∈ l.drop k) : x ∈ l :=
  List.mem_of_mem_drop h

theorem convert_decode_shape (src : List Nat) (from_ : format) (inter : Inter)
    (f : List Block) (t : List Nat) (hb : ∀ b ∈ src, b < 256) (hlen : src.length < 2 ^ 30)
    (hdec : convert_decode src from_ = some (Stage.next inter f))
    (ht : cstr inter.mem = some t) :
    (∀ u ∈ t, u < 65536) ∧ inter.mem.length ≤ src.length + 1 ∧
    (inter.size = (t.length + 1) * 2 ∨ inter.size = 0) := by
  rw [two_pow_30] at hlen
  obtain ⟨hzt, tail, hmem⟩ := cstr_eq_some _ _ ht
  have hsub : ∀ u ∈ t, u ∈ inter.mem := fun u h => by rw [hmem]; simp [h]
  unfold convert_decode at hdec
  cases henc : from_.encoding with
  | ENCODING_UTF16 =>
    rw [henc] at hdec
    simp only [lstrlenW, Option.map_map] at hdec
    obtain ⟨s0, hs0, e⟩ := Option.map_eq_some'.mp hdec
    simp only [Function.comp_apply, Stage.next.injEq] at e
    obtain ⟨e, -⟩ := e
    obtain ⟨hz0, tail0, hU⟩ := cstr_eq_some _ _ hs0
    have hUlen := units_of_bytes_length_le src
    rw [hU] at hUlen
    simp only [List.length_append, List.length_cons] at hUlen
    have hmemlt : ∀ u ∈ inter.mem, u < 65536 := by
      rw [← e]
      exact units_of_bytes_lt _ (fun b h => hb b (mem_of_mem_drop _ _ _ h))
    have hmemlen : 2 * inter.mem.length ≤ src.length := by
      have hm0 : inter.mem = units_of_bytes (src.drop
          (if from_.bom = true then get_bom encoding.ENCODING_UTF16.toInt else bom_zero).size) := by
        rw [← e]
      have := units_of_bytes_length_le (src.drop
        (if from_.bom = true then get_bom encoding.ENCODING_UTF16.toInt else bom_zero).size)
      rw [← hm0] at this
      simp only [List.length_drop] at this
      omega
    refine ⟨fun u h => hmemlt u (hsub u h), by omega, ?_⟩
    cases hbf : from_.bom with
    | false =>
      rw [hbf] at e
      simp only [Bool.false_eq_true, if_false, bom_zero, List.drop_zero] at e
      left
      have hm : inter.mem = units_of_bytes src := by rw [← e]
      rw [hm, hs0] at ht
      simp only [Option.some.injEq] at ht
      subst ht
      rw [← e]
      simp only
      omega
    | true =>
      rw [hbf] at e
      have hs : (get_bom encoding.ENCODING_UTF16.toInt).size = 2 := by decide
      simp only [if_true, hs] at e
      have hm : inter.mem = (units_of_bytes src).drop 1 := by
        rw [← e]
        exact units_of_bytes_drop_two src
      cases s0 with
      | nil =>
        right
        rw [← e]
        simp
      | cons c s1 =>
        left
        rw [hU] at hm
        simp only [List.cons_append, List.drop_succ_cons, List.drop_zero] at hm
        have hz1 : 0 ∉ s1 := fun h => hz0 (by simp [h])
        rw [hm, cstr_append s1 tail0 hz1] at ht
        simp only [Option.some.injEq] at ht
        subst ht
        rw [← e]
        simp only [List.length_cons] at hUlen ⊢
        omega
  | ENCODING_UTF8 =>
    rw [henc] at hdec
    cases src with
    | nil => simp at hdec
    | cons c0 rest =>
      simp only at hdec
      split at hdec
      · simp only [Option.some.injEq, Stage.next.injEq] at hdec
        obtain ⟨e, -⟩ := hdec
        rw [← e] at ht ⊢
        simp only [cstr, if_true, Option.some.injEq] at ht
        subst ht
        simp
      · obtain ⟨out, hout, e⟩ := Option.map_eq_some'.mp hdec
        split at e
        · exact absurd e (by simp)
        · rename_i hne
          simp only [Stage.next.injEq] at e
          obtain ⟨e, -⟩ := e
          unfold MultiByteToWideChar at hout
          obtain ⟨bs, hbs, e2⟩ := Option.map_eq_some'.mp hout
          obtain ⟨hzb, tailb, hsrc⟩ := cstr_eq_some _ _ hbs
          have hbl : bs.length < (c0 :: rest).length := by
            have := congrArg List.length hsrc
            simp only [List.length_drop, List.length_append, List.length_cons] at this
            simp only [List.length_cons]
            omega
          cases hdu : utf8_to_utf16 bs with
          | none =>
            rw [hdu] at e2
            exact absurd (by rw [← e2]; rfl) hne
          | some us =>
            rw [hdu] at e2
            simp only at e2
            obtain ⟨p1, p2, p3⟩ := utf8_to_utf16_props bs us hdu
            have hm : inter.mem = us ++ [0] := by rw [← e, ← e2]
            rw [hm, cstr_append us [] (p2 hzb)] at ht
            simp only [Option.some.injEq] at ht
            subst ht
            refine ⟨p1, ?_, ?_⟩
            · rw [hm]
              simp only [List.length_append, List.length_singleton]
              omega
            · left
              rw [← e, ← e2]
              simp only [List.length_append, List.length_singleton]
              simp only [List.length_cons] at hbl hlen
              omega

theorem convert_encode_no_crlf (inter : Inter) (t tail : List Nat) (to_ : format)
    (nullterm : Bool) (inter3 : Inter) (f3 : List Block) (hz : 0 ∉ t)
    (hmem : inter.mem = t ++ 0 :: tail)
    (hsz : inter.size = (t.length + 1) * 2 ∨ inter.size = 0)
    (hml : inter.mem.length < 2 ^ 31) (hu : ∀ u ∈ t, u < 65536) (hno : has_crlf t = false)
    (h : convert_encode inter to_ nullterm = some (Stage.next inter3 f3)) :
    has_crlf (output_text to_.encoding inter3.mem) = false := by
  have hml2 := hml
  rw [two_pow_31] at hml2
  have htl : t.length + 1 ≤ inter.mem.length := by
    rw [hmem]
    simp only [List.length_append, List.length_cons]
    omega
  rcases hsz with hsz | hsz
  · obtain ⟨i3, g3, h3, hm3, -, -⟩ := convert_encode_holds inter t to_ nullterm
      ⟨hz, ⟨tail, hmem⟩, hsz⟩ (by rw [two_pow_31]; omega)
    rw [h3] at h
    simp only [Option.some.injEq, Stage.next.injEq] at h
    rw [← h.1, hm3]
    exact encoded_bytes_no_crlf to_ nullterm t hu hz hno
  · unfold convert_encode at h
    cases henc : to_.encoding with
    | ENCODING_UTF16 =>
      rw [henc] at h
      simp only [hsz] at h
      cases nullterm with
      | true =>
        have e1 : (0 + 2 ^ 64 - 0 * 2) % 2 ^ 64 = 0 := by norm_num
        simp only [if_true, e1, memcpy_read, Nat.not_lt_zero, if_false, List.take_zero,
          Option.map_some', Option.some.injEq, Stage.next.injEq] at h
        rw [← h.1]
        simp only [output_text, List.append_nil]
        cases to_.bom <;> decide
      | false =>
        have e1 : (0 + 2 ^ 64 - 1 * 2) % 2 ^ 64 = 18446744073709551614 := by norm_num
        have hl : (bytes_of_units inter.mem).length < 18446744073709551614 := by
          rw [bytes_of_units_length]; omega
        simp only [Bool.false_eq_true, if_false, e1, memcpy_read, hl, if_true,
          Option.map_none'] at h
        exact absurd h (by simp)
    | ENCODING_UTF8 =>
      rw [henc] at h
      simp only [hsz, hmem] at h
      cases t with
      | nil =>
        simp only [List.nil_append, if_true, Option.some.injEq, Stage.next.injEq] at h
        rw [← h.1]
        simp only [output_text]
        cases nullterm <;> rfl
      | cons c rest =>
        have hc : c ≠ 0 := fun e => hz (by simp [e])
        rw [List.cons_append] at h
        simp only [hc, if_false] at h
        cases nullterm with
        | true =>
          have e1 : (0 / 2 + 2 ^ 64 - 0) % 2 ^ 64 = 0 := by norm_num
          simp only [if_true, e1, WideCharToMultiByte, Option.map_some', List.length_nil,
            Option.some.injEq, reduceCtorEq] at h
        | false =>
          have e1 : (0 / 2 + 2 ^ 64 - 1) % 2 ^ 64 = 2 ^ 64 - 1 := by norm_num
          have hcs : cstr (c :: (rest ++ 0 :: tail)) = some (c :: rest) := by
            rw [← List.cons_append]
            exact cstr_append (c :: rest) tail hz
          have hw : WideCharToMultiByte (c :: (rest ++ 0 :: tail)) (2 ^ 64 - 1) =
              some (utf16_to_utf8 (c :: rest ++ [0])) := by
            unfold WideCharToMultiByte
            rw [if_neg (by norm_num), if_pos rfl, hcs]
            rfl
          simp only [Bool.false_eq_true, if_false, e1, hw, Option.map_some',
            Option.some.injEq] at h
          split at h
          · exact absurd h (by simp)
          · simp only [Stage.next.injEq] at h
            rw [← h.1]
            simp only [output_text]
            have hy := (utf16_to_utf8_crlf (c :: rest ++ [0])).1
            rw [has_crlf_append_zero (c :: rest) hz, hno] at hy
            cases to_.bom with
            | false =>
              simp only [Bool.false_eq_true, if_false, bom_zero, bom_bytes, List.take_zero,
                List.nil_append]
              exact hy
            | true =>
              have hb : bom_bytes (get_bom encoding.ENCODING_UTF8.toInt) =
                  [0xEF, 0xBB, 0xBF] := by decide
              simp only [if_true, hb, List.cons_append, List.nil_append]
              rw [has_crlf_cons_other _ _ (by decide), has_crlf_cons_other _ _ (by decide),
                has_crlf_cons_other _ _ (by decide)]
              exact hy

/-! ## Lemmas: the detector -/

theorem utf16_to_utf8_append_zero (t : List Nat) :
    utf16_to_utf8 (t ++ [0]) = utf16_to_utf8 t ++ [0] := by
  refine utf16_to_utf8_induction
    (fun t => utf16_to_utf8 (t ++ [0]) = utf16_to_utf8 t ++ [0]) (by decide) ?_ ?_ t
  · intro u rest hp ih
    have hp2 : ¬ ((0xD800 ≤ u ∧ u ≤ 0xDBFF) ∧
        ∃ lo r, rest ++ [0] = lo :: r ∧ 0xDC00 ≤ lo ∧ lo ≤ 0xDFFF) := by
      rintro ⟨hu, lo, r, hr, hlo⟩
      cases rest with
      | nil =>
        simp only [List.nil_append, List.cons.injEq] at hr
        omega
      | cons a b =>
        simp only [List.cons_append, List.cons.injEq] at hr
        exact hp ⟨hu, a, b, rfl, by omega⟩
    rw [List.cons_append, utf16_to_utf8_cons u _ hp2, utf16_to_utf8_cons u _ hp, ih,
      List.append_assoc]
  · intro u lo rest hp ih
    rw [List.cons_append, List.cons_append, utf16_to_utf8_pair u lo _ hp,
      utf16_to_utf8_pair u lo _ hp, ih]
    rfl

theorem encoded_bytes_nullterm (to_ : format) (t : List Nat) :
    encoded_bytes to_ true t = encoded_bytes to_ false t ++ null_unit to_.encoding := by
  cases to_ with
  | mk e lb b =>
    cases e with
    | ENCODING_UTF16 =>
      simp only [encoded_bytes, null_unit, if_true, Bool.false_eq_true, if_false,
        bytes_of_units_append, List.append_assoc]
      rfl
    | ENCODING_UTF8 =>
      simp only [encoded_bytes, null_unit, if_true, Bool.false_eq_true, if_false]
      split
      · rfl
      · rw [utf16_to_utf8_append_zero, List.append_assoc]

theorem win_count_some (l : List Nat) (i prev len : Nat) (skip : Bool) (x : Nat × Bool)
    (h : win_count i prev len skip l = some x) : ∃ t, cstr l = some t := by
  induction l generalizing i prev len skip with
  | nil => simp [win_count] at h
  | cons c rest ih =>
    rw [win_count] at h
    by_cases hc : c = 0
    · exact ⟨[], by simp [cstr, hc]⟩
    · rw [if_neg hc] at h
      have : ∃ t, cstr rest = some t := by
        split at h
        · exact ih _ _ _ _ h
        · exact ih _ _ _ _ h
      obtain ⟨t, ht⟩ := this
      exact ⟨c :: t, by simp [cstr, hc, ht]⟩

theorem unix_count_some (l : List Nat) (len : Nat) (skip : Bool) (x : Nat × Bool)
    (h : unix_count len skip l = some x) : ∃ t, cstr l = some t := by
  induction l generalizing len skip with
  | nil => simp [unix_count] at h
  | cons c rest ih =>
    rw [unix_count] at h
    by_cases hc : c = 0
    · exact ⟨[], by simp [cstr, hc]⟩
    · rw [if_neg hc] at h
      have : ∃ t, cstr rest = some t := by
        split at h
        · exact ih _ _ h
        · exact ih _ _ h
      obtain ⟨t, ht⟩ := this
      exact ⟨c :: t, by simp [cstr, hc, ht]⟩

theorem convert_linebreak_some (inter : Inter) (to_ : format) (st : Stage)
    (h : convert_linebreak inter to_ = some st) : ∃ t, cstr inter.mem = some t := by
  unfold convert_linebreak at h
  cases hl : to_.linebreak with
  | LINEBREAK_WIN =>
    rw [hl] at h
    simp only at h
    obtain ⟨x, hx, -⟩ := Option.bind_eq_some.mp h
    exact win_count_some _ _ _ _ _ x hx
  | LINEBREAK_UNIX =>
    rw [hl] at h
    simp only at h
    obtain ⟨x, hx, -⟩ := Option.bind_eq_some.mp h
    exact unix_count_some _ _ _ x hx

theorem convert_decode_size (src : List Nat) (from_ : format) (inter : Inter)
    (f : List Block) (t : List Nat) (hlen : src.length < 2 ^ 30)
    (hdec : convert_decode src from_ = some (Stage.next inter f))
    (ht : cstr inter.mem = some t) :
    inter.mem.length ≤ src.length + 1 ∧
    (inter.size = (t.length + 1) * 2 ∨
      (inter.size = 0 ∧ from_.encoding = .ENCODING_UTF16 ∧ from_.bom = true ∧
        (units_of_bytes src).head? = some 0)) := by
  rw [two_pow_30] at hlen
  obtain ⟨hzt, tail, hmem⟩ := cstr_eq_some _ _ ht
  unfold convert_decode at hdec
  cases henc : from_.encoding with
  | ENCODING_UTF16 =>
    rw [henc] at hdec
    simp only [lstrlenW, Option.map_map] at hdec
    obtain ⟨s0, hs0, e⟩ := Option.map_eq_some'.mp hdec
    simp only [Function.comp_apply, Stage.next.injEq] at e
    obtain ⟨e, -⟩ := e
    obtain ⟨hz0, tail0, hU⟩ := cstr_eq_some _ _ hs0
    have hUlen := units_of_bytes_length_le src
    rw [hU] at hUlen
    simp only [List.length_append, List.length_cons] at hUlen
    have hmemlen : 2 * inter.mem.length ≤ src.length := by
      have hm0 : inter.mem = units_of_bytes (src.drop
          (if from_.bom = true then get_bom encoding.ENCODING_UTF16.toInt else bom_zero).size) := by
        rw [← e]
      have := units_of_bytes_length_le (src.drop
        (if from_.bom = true then get_bom encoding.ENCODING_UTF16.toInt else bom_zero).size)
      rw [← hm0] at this
      simp only [List.length_drop] at this
      omega
    refine ⟨by omega, ?_⟩
    cases hbf : from_.bom with
    | false =>
      rw [hbf] at e
      simp only [Bool.false_eq_true, if_false, bom_zero, List.drop_zero] at e
      left
      have hm : inter.mem = units_of_bytes src := by rw [← e]
      rw [hm, hs0] at ht
      simp only [Option.some.injEq] at ht
      subst ht
      rw [← e]
      simp only
      omega
    | true =>
      rw [hbf] at e
      have hs : (get_bom encoding.ENCODING_UTF16.toInt).size = 2 := by decide
      simp only [if_true, hs] at e
      have hm : inter.mem = (units_of_bytes src).drop 1 := by
        rw [← e]
        exact units_of_bytes_drop_two src
      cases s0 with
      | nil =>
        right
        refine ⟨?_, rfl, rfl, ?_⟩
        · rw [← e]
          simp
        · rw [hU]
          rfl
      | cons c s1 =>
        left
        rw [hU] at hm
        simp only [List.cons_append, List.drop_succ_cons, List.drop_zero] at hm
        have hz1 : 0 ∉ s1 := fun h => hz0 (by simp [h])
        rw [hm, cstr_append s1 tail0 hz1] at ht
        simp only [Option.some.injEq] at ht
        subst ht
        rw [← e]
        simp only [List.length_cons] at hUlen ⊢
        omega
  | ENCODING_UTF8 =>
    rw [henc] at hdec
    cases src with
    | nil => simp at hdec
    | cons c0 rest =>
      simp only at hdec
      split at hdec
      · simp only [Option.some.injEq, Stage.next.injEq] at hdec
        obtain ⟨e, -⟩ := hdec
        rw [← e] at ht ⊢
        simp only [cstr, if_true, Option.some.injEq] at ht
        subst ht
        simp
      · obtain ⟨out, hout, e⟩ := Option.map_eq_some'.mp hdec
        split at e
        · exact absurd e (by simp)
        · rename_i hne
          simp only [Stage.next.injEq] at e
          obtain ⟨e, -⟩ := e
          unfold MultiByteToWideChar at hout
          obtain ⟨bs, hbs, e2⟩ := Option.map_eq_some'.mp hout
          obtain ⟨hzb, tailb, hsrc⟩ := cstr_eq_some _ _ hbs
          have hbl : bs.length < (c0 :: rest).length := by
            have := congrArg List.length hsrc
            simp only [List.length_drop, List.length_append, List.length_cons] at this
            simp only [List.length_cons]
            omega
          cases hdu : utf8_to_utf16 bs with
          | none =>
            rw [hdu] at e2
            exact absurd (by rw [← e2]; rfl) hne
          | some us =>
            rw [hdu] at e2
            simp only at e2
            obtain ⟨-, p2, p3⟩ := utf8_to_utf16_props bs us hdu
            have hm : inter.mem = us ++ [0] := by rw [← e, ← e2]
            rw [hm, cstr_append us [] (p2 hzb)] at ht
            simp only [Option.some.injEq] at ht
            subst ht
            refine ⟨?_, ?_⟩
            · rw [hm]
              simp only [List.length_append, List.length_singleton]
              omega
            · left
              rw [← e, ← e2]
              simp only [List.length_append, List.length_singleton]
              simp only [List.length_cons] at hbl hlen
              omega

theorem convert_front_shape (src : List Nat) (from_ to_ : format) (inter inter2 : Inter)
    (f1 f2 : List Block) (hlen : src.length < 2 ^ 30)
    (h1 : convert_decode src from_ = some (Stage.next inter f1))
    (h2 : convert_linebreak inter to_ = some (Stage.next inter2 f2)) :
    ∃ t2 tail2, 0 ∉ t2 ∧ inter2.mem = t2 ++ 0 :: tail2 ∧
      (inter2.size = (t2.length + 1) * 2 ∨ inter2.size = 0) ∧ inter2.mem.length < 2 ^ 31 := by
  obtain ⟨t, ht⟩ := convert_linebreak_some inter to_ _ h2
  obtain ⟨hml, hsz⟩ := convert_decode_size src from_ inter f1 t hlen h1 ht
  obtain ⟨hz, tail, hmem⟩ := cstr_eq_some _ _ ht
  have h30 := two_pow_30
  have h31 := two_pow_31
  have htl : t.length + 1 ≤ inter.mem.length := by
    rw [hmem]
    simp only [List.length_append, List.length_cons]
    omega
  have hrl : (relined_text to_.linebreak t).length ≤ 2 * t.length := by
    cases to_.linebreak with
    | LINEBREAK_WIN => exact to_win_length_le t 0
    | LINEBREAK_UNIX =>
      have := to_unix_length_le t
      simp only [relined_text]
      omega
  rcases convert_linebreak_next inter t tail to_ hz hmem (by omega) with ⟨hlb, -⟩ | hlb
  · rw [hlb] at h2
    simp only [Option.some.injEq, Stage.next.injEq] at h2
    rw [← h2.1]
    refine ⟨t, tail, hz, hmem, ?_, by omega⟩
    rcases hsz with h | h
    · exact Or.inl h
    · exact Or.inr h.1
  · rw [hlb] at h2
    simp only [Option.some.injEq, Stage.next.injEq] at h2
    rw [← h2.1]
    refine ⟨relined_text to_.linebreak t, [], relined_text_zero_free _ t hz, rfl, Or.inl rfl, ?_⟩
    simp only [List.length_append, List.length_singleton]
    omega

theorem convert_encode_nullterm (inter : Inter) (t tail : List Nat) (to_ : format)
    (i1 i0 : Inter) (g1 g0 : List Block) (hz : 0 ∉ t) (hmem : inter.mem = t ++ 0 :: tail)
    (hsz : inter.size = (t.length + 1) * 2 ∨ inter.size = 0)
    (hml : inter.mem.length < 2 ^ 31)
    (h1 : convert_encode inter to_ true = some (Stage.next i1 g1))
    (h0 : convert_encode inter to_ false = some (Stage.next i0 g0)) :
    i1.mem = i0.mem ++ null_unit to_.encoding ∧
    i1.size = i0.size + (null_unit to_.encoding).length := by
  have hml2 := hml
  rw [two_pow_31] at hml2
  have htl : t.length + 1 ≤ inter.mem.length := by
    rw [hmem]
    simp only [List.length_append, List.length_cons]
    omega
  rcases hsz with hsz | hsz
  · have hin : inter_holds inter t := ⟨hz, ⟨tail, hmem⟩, hsz⟩
    obtain ⟨j1, k1, e1, m1, s1, -⟩ := convert_encode_holds inter t to_ true hin
      (by rw [two_pow_31]; omega)
    obtain ⟨j0, k0, e0, m0, s0, -⟩ := convert_encode_holds inter t to_ false hin
      (by rw [two_pow_31]; omega)
    rw [e1] at h1
    rw [e0] at h0
    simp only [Option.some.injEq, Stage.next.injEq] at h1 h0
    rw [← h1.1, ← h0.1, m1, m0, s1, s0, encoded_bytes_nullterm, List.length_append]
    exact ⟨rfl, rfl⟩
  · unfold convert_encode at h1 h0
    cases henc : to_.encoding with
    | ENCODING_UTF16 =>
      rw [henc] at h0
      simp only [hsz] at h0
      have e1 : (0 + 2 ^ 64 - 1 * 2) % 2 ^ 64 = 18446744073709551614 := by norm_num
      have hl : (bytes_of_units inter.mem).length < 18446744073709551614 := by
        rw [bytes_of_units_length]; omega
      simp only [Bool.false_eq_true, if_false, e1, memcpy_read, hl, if_true,
        Option.map_none'] at h0
      exact absurd h0 (by simp)
    | ENCODING_UTF8 =>
      rw [henc] at h1 h0
      simp only [hsz, hmem] at h1 h0
      cases t with
      | nil =>
        simp only [List.nil_append, if_true, Option.some.injEq, Stage.next.injEq,
          Bool.false_eq_true, if_false] at h1 h0
        rw [← h1.1, ← h0.1]
        exact ⟨rfl, rfl⟩
      | cons c rest =>
        have hc : c ≠ 0 := fun e => hz (by simp [e])
        rw [List.cons_append] at h1
        simp only [hc, if_false] at h1
        have e1 : (0 / 2 + 2 ^ 64 - 0) % 2 ^ 64 = 0 := by norm_num
        simp only [if_true, e1, WideCharToMultiByte, Option.map_some', List.length_nil,
          Option.some.injEq, reduceCtorEq] at h1

/-! ## Lemmas: which blocks the stages release -/

theorem convert_decode_blocks (src : List Nat) (from_ : format) (st : Stage)
    (h : convert_decode src from_ = some st) :
    st = Stage.quit none [] ∨
    ∃ inter, st = Stage.next inter [] ∧ (inter.block = Block.src → inter.should_free = false) := by
  unfold convert_decode at h
  cases henc : from_.encoding with
  | ENCODING_UTF16 =>
    rw [henc] at h
    obtain ⟨len, -, e⟩ := Option.map_eq_some'.mp h
    exact Or.inr ⟨_, e.symm, fun _ => rfl⟩
  | ENCODING_UTF8 =>
    rw [henc] at h
    cases src with
    | nil => simp at h
    | cons c0 rest =>
      simp only at h
      split at h
      · simp only [Option.some.injEq] at h
        exact Or.inr ⟨_, h.symm, fun e => absurd e (by simp)⟩
      · obtain ⟨out, -, e⟩ := Option.map_eq_some'.mp h
        split at e
        · exact Or.inl e.symm
        · exact Or.inr ⟨_, e.symm, fun e => absurd e (by simp)⟩

theorem reline_blocks (inter : Inter) (n : Nat) (w : List Nat) (st : Stage)
    (h : reline inter n w = some st) :
    ∃ inter2, st = Stage.next inter2 (if inter.should_free then [inter.block] else []) ∧
      inter2.block = Block.relined := by
  unfold reline at h
  split at h
  · exact absurd h (by simp)
  · simp only [Option.some.injEq] at h
    exact ⟨_, h.symm, rfl⟩

theorem convert_linebreak_blocks (inter : Inter) (to_ : format) (st : Stage)
    (h : convert_linebreak inter to_ = some st) :
    st = Stage.next inter [] ∨
    ∃ inter2, st = Stage.next inter2 (if inter.should_free then [inter.block] else []) ∧
      inter2.block = Block.relined := by
  unfold convert_linebreak at h
  cases hl : to_.linebreak with
  | LINEBREAK_WIN =>
    rw [hl] at h
    simp only at h
    obtain ⟨x, -, hx⟩ := Option.bind_eq_some.mp h
    split at hx
    · simp only [Option.some.injEq] at hx
      exact Or.inl hx.symm
    · obtain ⟨w, -, hw⟩ := Option.bind_eq_some.mp hx
      exact Or.inr (reline_blocks inter _ w st hw)
  | LINEBREAK_UNIX =>
    rw [hl] at h
    simp only at h
    obtain ⟨x, -, hx⟩ := Option.bind_eq_some.mp h
    split at hx
    · simp only [Option.some.injEq] at hx
      exact Or.inl hx.symm
    · obtain ⟨w, -, hw⟩ := Option.bind_eq_some.mp hx
      exact Or.inr (reline_blocks inter _ w st hw)

theorem convert_encode_blocks (inter : Inter) (to_ : format) (nullterm : Bool) (st : Stage)
    (h : convert_encode inter to_ nullterm = some st) :
    st = Stage.quit (some inter) [] ∨
    ∃ inter3, st = Stage.next inter3 (if inter.should_free then [inter.block] else []) ∧
      inter3.should_free = false := by
  unfold convert_encode at h
  cases henc : to_.encoding with
  | ENCODING_UTF16 =>
    rw [henc] at h
    obtain ⟨x, -, e⟩ := Option.map_eq_some'.mp h
    exact Or.inr ⟨_, e.symm, rfl⟩
  | ENCODING_UTF8 =>
    rw [henc] at h
    simp only at h
    split at h
    · exact absurd h (by simp)
    · split at h
      · simp only [Option.some.injEq] at h
        exact Or.inr ⟨_, h.symm, rfl⟩
      · obtain ⟨out, -, e⟩ := Option.map_eq_some'.mp h
        split at e
        · exact Or.inl e.symm
        · exact Or.inr ⟨_, e.symm, rfl⟩

theorem inter_frees_not_src (inter : Inter)
    (h : inter.block = Block.src → inter.should_free = false) :
    Block.src ∉ (if inter.should_free then [inter.block] else []) := by
  cases hs : inter.should_free with
  | false => simp
  | true =>
    simp only [if_true, List.mem_singleton]
    intro e
    have := h e.symm
    rw [hs] at this
    exact absurd this (by simp)

theorem convert_quit_freed (inter : Option Inter) (fail sf : Bool) (freed : List Block)
    (hfr : Block.src ∉ freed)
    (hin : ∀ it, inter = some it → it.block = Block.src → it.should_free = false) :
    ∃ pre, (convert_quit inter fail sf freed).freed = pre ++ (if sf then [Block.src] else []) ∧
      Block.src ∉ pre := by
  unfold convert_quit
  cases inter with
  | none =>
    refine ⟨freed, ?_, hfr⟩
    cases sf <;> simp
  | some it =>
    have hi := inter_frees_not_src it (hin it rfl)
    refine ⟨freed ++ (if it.should_free then [it.block] else []), ?_, ?_⟩
    · cases hsf : it.should_free <;> cases sf <;> simp [hsf]
    · intro hm
      rcases List.mem_append.mp hm with hm | hm
      · exact hfr hm
      · exact hi hm

/-! ## Lemmas: the result of the rewrite to Windows line breaks -/

theorem lf_after_cr_to_win (s : List Nat) (p : Nat) : lf_after_cr p (to_win p s) = true := by
  induction s generalizing p with
  | nil => rfl
  | cons c rest ih =>
    by_cases hb : c = 10 ∧ p ≠ 13
    · rw [to_win, if_pos hb, lf_after_cr, lf_after_cr, ih c]
      simp [hb.1]
    · rw [to_win, if_neg hb, lf_after_cr, ih c]
      have : (decide (c ≠ 10) || decide (p = 13)) = true := by
        by_cases h10 : c = 10
        · have : p = 13 := by
            by_contra h13
            exact hb ⟨h10, h13⟩
          simp [this]
        · simp [h10]
      rw [this]
      rfl

/-! ## Lemmas: the counts of the linebreak stage, and the way back to Unix -/

theorem to_win_length (s : List Nat) (p : Nat) :
    (to_win p s).length = s.length + bare_lf_count p s := by
  induction s generalizing p with
  | nil => simp [to_win, bare_lf_count]
  | cons c rest ih =>
    have := ih c
    rw [to_win, bare_lf_count]
    split
    · simp only [List.length_cons]; omega
    · simp only [List.length_cons]; omega

theorem to_unix_length (s : List Nat) : (to_unix s).length + crlf_count s = s.length := by
  induction s with
  | nil => simp [to_unix, crlf_count]
  | cons c rest ih =>
    rw [to_unix, crlf_count]
    by_cases hb : is_crlf c rest = true
    · have hc : c = 13 ∧ rest.head? = some 10 := by simpa [is_crlf] using hb
      rw [if_pos hb, if_pos hc]
      simp only [List.length_cons]
      omega
    · have hc : ¬ (c = 13 ∧ rest.head? = some 10) := by simpa [is_crlf] using hb
      rw [if_neg hb, if_neg hc]
      simp only [List.length_cons]
      omega

theorem lf_after_cr_iff_count (s : List Nat) (p : Nat) :
    lf_after_cr p s = decide (bare_lf_count p s = 0) := by
  induction s generalizing p with
  | nil => simp [lf_after_cr, bare_lf_count]
  | cons c rest ih =>
    rw [lf_after_cr, bare_lf_count, ih c]
    by_cases h : c = 10 ∧ p ≠ 13
    · rw [if_pos h]
      obtain ⟨h1, h2⟩ := h
      simp [h1, h2]
    · rw [if_neg h]
      have : (decide (c ≠ 10) || decide (p = 13)) = true := by
        simp only [Bool.or_eq_true, decide_eq_true_eq]
        by_cases hc : c = 10
        · right
          by_contra hp
          exact h ⟨hc, hp⟩
        · left
          exact hc
      rw [this]
      simp

theorem has_crlf_iff_count (s : List Nat) : (!has_crlf s) = decide (crlf_count s = 0) := by
  induction s with
  | nil => simp [has_crlf, crlf_count]
  | cons c rest ih =>
    rw [has_crlf, crlf_count, Bool.not_or, ih]
    by_cases hb : is_crlf c rest = true
    · have hc : c = 13 ∧ rest.head? = some 10 := by simpa [is_crlf] using hb
      rw [hb, if_pos hc]
      simp
    · have hc : ¬ (c = 13 ∧ rest.head? = some 10) := by simpa [is_crlf] using hb
      have hb2 : is_crlf c rest = false := by simpa using hb
      rw [hb2, if_neg hc]
      simp

theorem to_win_head (s : List Nat) (p : Nat) (h : (to_win p s).head? = some 10) :
    s.head? = some 10 := by
  cases s with
  | nil => simp [to_win] at h
  | cons c rest =>
    rw [to_win] at h
    split at h
    · simp at h
    · simpa using h

theorem to_unix_to_win (s : List Nat) (p : Nat) (h : has_crlf s = false) :
    to_unix (to_win p s) = s := by
  induction s generalizing p with
  | nil => simp [to_win, to_unix]
  | cons c rest ih =>
    rw [has_crlf, Bool.or_eq_false_iff] at h
    obtain ⟨h1, h2⟩ := h
    rw [to_win]
    split
    · rename_i hc
      obtain ⟨hc1, _⟩ := hc
      subst hc1
      have e1 : is_crlf 13 (10 :: to_win 10 rest) = true := by simp [is_crlf]
      have e2 : is_crlf 10 (to_win 10 rest) = false := by simp [is_crlf]
      rw [to_unix, if_pos e1, to_unix, e2, ih 10 h2]
      simp
    · have e : is_crlf c (to_win c rest) = false := by
        by_contra hb
        have hb : is_crlf c (to_win c rest) = true := by simpa using hb
        have hb2 : c = 13 ∧ (to_win c rest).head? = some 10 := by simpa [is_crlf] using hb
        have := to_win_head rest c hb2.2
        have : is_crlf c rest = true := by simp [is_crlf, hb2.1, this]
        rw [h1] at this
        exact absurd this (by simp)
      rw [to_unix, e, ih c h2]
      simp

theorem mem_to_win (s : List Nat) (p : Nat) : ∀ u ∈ to_win p s, u = 13 ∨ u ∈ s := by
  induction s generalizing p with
  | nil => simp [to_win]
  | cons c rest ih =>
    intro u hu
    rw [to_win] at hu
    split at hu
    · rcases List.mem_cons.mp hu with hu | hu
      · left; exact hu
      · rcases List.mem_cons.mp hu with hu | hu
        · right; simp [hu]
        · rcases ih c u hu with h | h
          · left; exact h
          · right; exact List.mem_cons_of_mem _ h
    · rcases List.mem_cons.mp hu with hu | hu
      · right; simp [hu]
      · rcases ih c u hu with h | h
        · left; exact h
        · right; exact List.mem_cons_of_mem _ h

theorem convert_linebreak_text (inter : Inter) (t tail : List Nat) (to_ : format)
    (hz : 0 ∉ t) (hmem : inter.mem = t ++ 0 :: tail)
    (hlen : (relined_text to_.linebreak t).length + 1 < 2 ^ 63) :
    ∃ inter2 f2 tail2, convert_linebreak inter to_ = some (Stage.next inter2 f2) ∧
      inter2.mem = relined_text to_.linebreak t ++ 0 :: tail2 := by
  rcases convert_linebreak_next inter t tail to_ hz hmem hlen with ⟨h, e⟩ | h
  · exact ⟨inter, [], tail, h, by rw [e, hmem]⟩
  · exact ⟨_, _, [], h, rfl⟩

/-- The scan of `get_format` records Windows when it starts inside the buffer
and every line feed it meets before the terminator follows a carriage
return. -/
theorem linebreak_scan_windows (rest tail : List Nat) (i prev : Nat) (hi : i ≠ 0)
    (h : lf_after_cr prev rest = true) :
    linebreak_scan i prev (rest ++ 0 :: tail) = some .LINEBREAK_WIN := by
  induction rest generalizing i prev with
  | nil => simp [linebreak_scan]
  | cons u r ih =>
    rw [lf_after_cr, Bool.and_eq_true, Bool.or_eq_true, decide_eq_true_eq,
      decide_eq_true_eq] at h
    obtain ⟨h1, h2⟩ := h
    rw [List.cons_append, linebreak_scan]
    by_cases hu : u = 10
    · have hp : prev = 13 := by
        rcases h1 with h1 | h1
        · exact absurd hu h1
        · exact h1
      rw [if_pos hu, if_neg (by simp [hi, hp])]
      exact ih (i + 1) u (by omega) h2
    · rw [if_neg hu]
      by_cases h0 : u = 0
      · rw [if_pos h0]
      · rw [if_neg h0]
        exact ih (i + 1) u (by omega) h2

theorem convert_decode_wide (lb : linebreak) (t : List Nat) (hu : ∀ u ∈ t, u < 65536)
    (hz : 0 ∉ t) (hlen : t.length + 1 < 2 ^ 31) :
    ∃ inter f, convert_decode (wide_string t) ⟨.ENCODING_UTF16, lb, false⟩ =
      some (Stage.next inter f) ∧ inter_holds inter t := by
  have := convert_decode_utf16 false lb t [] hu hz hlen
  simpa [wide_string, bom_bytes, bom_zero] using this

/-! ## The claims -/

/-- C1, at the failing input: the four-byte UTF-8 file `a LF b LF` (no BOM, the
heuristic rejecting it), followed by the two zero bytes the loader appends, is
detected as UTF-8 with Windows line breaks, loads as `a CR LF b CR LF`, and is
saved as the six bytes `a CR LF b CR LF`, not as the four bytes of the file. -/
theorem load_then_save_unix_utf8 :
    get_format (fun _ _ => false) [97, 10, 98, 10, 0, 0] 4 =
      some ⟨.ENCODING_UTF8, .LINEBREAK_WIN, false⟩ ∧
    convert [97, 10, 98, 10, 0, 0] ⟨.ENCODING_UTF8, .LINEBREAK_WIN, false⟩ Internal_format
        true true =
      some { ret := some (wide_string [97, 13, 10, 98, 13, 10]), new_size := 14,
             freed := [.decoded, .relined, .src] } ∧
    convert (wide_string [97, 13, 10, 98, 13, 10]) Internal_format
        ⟨.ENCODING_UTF8, .LINEBREAK_WIN, false⟩ false true =
      some { ret := some [97, 13, 10, 98, 13, 10], new_size := 6, freed := [.src] } := by
  decide

/-- C3, at the failing input: the null-terminated UTF-8 buffer that holds the
BOM and an empty text, converted from UTF-8 with BOM to UTF-8 with BOM, comes
back as the terminator alone, of size 1, not as the four bytes given. -/
theorem convert_same_format_bom_only :
    convert [0xEF, 0xBB, 0xBF, 0] ⟨.ENCODING_UTF8, .LINEBREAK_WIN, true⟩
        ⟨.ENCODING_UTF8, .LINEBREAK_WIN, true⟩ true false =
      some { ret := some [0], new_size := 1, freed := [.decoded] } := by
  decide

/-- C4, at the failing input: the four-byte UTF-8 buffer `a LF b LF` without
BOM (followed by the loader's two zero bytes) is classified Windows: the scan of
the UTF-8 branch starts three bytes in, BOM or not, and only meets the
terminator. -/
theorem get_format_unix_utf8_no_bom :
    get_format (fun _ _ => false) [97, 10, 98, 10, 0, 0] 4 =
      some ⟨.ENCODING_UTF8, .LINEBREAK_WIN, false⟩ := by
  decide

/-- C5, at the failing input: for the one-byte UTF-8 buffer `a` with the
loader's two zero bytes the scan reads past the three bytes of the buffer (a
fault), and with the bytes `x LF 0` behind the buffer the answer is Unix. -/
theorem get_format_short_utf8 :
    get_format (fun _ _ => false) [97, 0, 0] 1 = none ∧
    get_format (fun _ _ => false) [97, 0, 0, 120, 10, 0] 1 =
      some ⟨.ENCODING_UTF8, .LINEBREAK_UNIX, false⟩ := by
  decide

/-- C7: `get_bom` is a total function; read as the first `size` bytes of
`data` in little-endian memory order it gives the two bytes `FF FE` for UTF-16
and the three bytes `EF BB BF` for UTF-8, and for every other value of its
argument the size 0 and the data 0. -/
theorem get_bom_table :
    bom_bytes (get_bom encoding.ENCODING_UTF16.toInt) = [0xFF, 0xFE] ∧
    (get_bom encoding.ENCODING_UTF16.toInt).size = 2 ∧
    bom_bytes (get_bom encoding.ENCODING_UTF8.toInt) = [0xEF, 0xBB, 0xBF] ∧
    (get_bom encoding.ENCODING_UTF8.toInt).size = 3 ∧
    ∀ e : Int, e ≠ encoding.ENCODING_UTF16.toInt → e ≠ encoding.ENCODING_UTF8.toInt →
      (get_bom e).size = 0 ∧ (get_bom e).data = 0 ∧ bom_bytes (get_bom e) = [] := by
  refine ⟨by decide, by decide, by decide, by decide, ?_⟩
  intro e h1 h0
  have h1 : e ≠ 1 := h1
  have h0 : e ≠ 0 := h0
  simp [get_bom, h1, h0, bom_bytes]

/-- C7 at the value 7, which names no encoding. -/
theorem get_bom_table_witness :
    (get_bom 7).size = 0 ∧ (get_bom 7).data = 0 ∧ bom_bytes (get_bom 7) = [] :=
  get_bom_table.2.2.2.2 7 (by decide) (by decide)

/-- C8, at the failing input: the empty text converted from the internal
format to UTF-8 with BOM succeeds and returns the terminator alone
(`nullterm = TRUE`) or nothing (`nullterm = FALSE`); the signature `EF BB BF`
is not written, while the same text converted to UTF-16 with BOM gets its
signature. -/
theorem convert_empty_utf8_bom :
    convert (wide_string []) Internal_format ⟨.ENCODING_UTF8, .LINEBREAK_WIN, true⟩ true false =
      some { ret := some [0], new_size := 1, freed := [] } ∧
    convert (wide_string []) Internal_format ⟨.ENCODING_UTF8, .LINEBREAK_WIN, true⟩ false false =
      some { ret := some [], new_size := 0, freed := [] } ∧
    convert (wide_string []) Internal_format ⟨.ENCODING_UTF16, .LINEBREAK_WIN, true⟩ false false =
      some { ret := some [0xFF, 0xFE], new_size := 2, freed := [] } := by
  decide

/-- C9, counterexample: the UTF-8 text `a CR CR LF b` converted to UTF-8 with
Unix line breaks is `a CR LF b`, which contains a carriage return immediately
followed by a line feed. -/
theorem convert_unix_keeps_crlf :
    convert [97, 13, 13, 10, 98, 0] ⟨.ENCODING_UTF8, .LINEBREAK_WIN, false⟩
        ⟨.ENCODING_UTF8, .LINEBREAK_UNIX, false⟩ false false =
      some { ret := some [97, 13, 10, 98], new_size := 4, freed := [.decoded, .relined] } ∧
    has_crlf (output_text .ENCODING_UTF8 [97, 13, 10, 98]) = true := by
  decide

/-- C9, amended: for every source buffer of fewer than `2 ^ 30` bytes and every
source format, if the decoded source text contains no carriage return
immediately followed by CR LF and `convert` succeeds with `to.linebreak = Unix`,
then the returned buffer (its 16-bit units for UTF-16, its bytes for UTF-8)
contains no carriage return immediately followed by a line feed. -/
theorem convert_unix_no_crlf (src : List Nat) (from_ to_ : format) (nullterm sf : Bool)
    (t : List Nat) (r : Result) (out : List Nat)
    (hb : ∀ b ∈ src, b < 256) (hlen : src.length < 2 ^ 30)
    (hto : to_.linebreak = .LINEBREAK_UNIX)
    (htext : decoded_text src from_ = some t) (hcc : has_crcrlf t = false)
    (hconv : convert src from_ to_ nullterm sf = some r) (hret : r.ret = some out) :
    has_crlf (output_text to_.encoding out) = false := by
  unfold decoded_text at htext
  obtain ⟨a, hdec, ha⟩ := Option.bind_eq_some.mp htext
  cases a with
  | quit i f => exact absurd ha (by simp)
  | next inter f =>
    simp only at ha
    obtain ⟨hu, hml, hsz⟩ := convert_decode_shape src from_ inter f t hb hlen hdec ha
    obtain ⟨hz, tail, hmem⟩ := cstr_eq_some _ _ ha
    have h30 := two_pow_30
    have h31 := two_pow_31
    have htl : t.length + 1 ≤ inter.mem.length := by
      rw [hmem]
      simp only [List.length_append, List.length_cons]
      omega
    have hul := to_unix_length_le t
    have hnc := has_crlf_to_unix t hcc
    unfold convert at hconv
    rw [hdec] at hconv
    simp only [Option.some_bind] at hconv
    have key : ∀ (inter2 : Inter) (f2 : List Block) (t2 tail2 : List Nat),
        convert_linebreak inter to_ = some (Stage.next inter2 f2) → 0 ∉ t2 →
        inter2.mem = t2 ++ 0 :: tail2 →
        (inter2.size = (t2.length + 1) * 2 ∨ inter2.size = 0) → inter2.mem.length < 2 ^ 31 →
        (∀ u ∈ t2, u < 65536) → has_crlf t2 = false →
        has_crlf (output_text to_.encoding out) = false := by
      intro inter2 f2 t2 tail2 hlb hz2 hmem2 hsz2 hml2 hu2 hno2
      rw [hlb] at hconv
      simp only [Option.some_bind] at hconv
      obtain ⟨c, hc, e⟩ := Option.bind_eq_some.mp hconv
      cases c with
      | quit i g =>
        simp only [Option.some.injEq] at e
        rw [← e] at hret
        simp [convert_quit] at hret
      | next inter3 f3 =>
        simp only [Option.some.injEq] at e
        rw [← e] at hret
        have h3 := convert_encode_no_crlf inter2 t2 tail2 to_ nullterm inter3 f3 hz2 hmem2 hsz2
          hml2 hu2 hno2 hc
        simp only [convert_quit, Bool.false_eq_true, if_false] at hret
        cases hsf : inter3.should_free with
        | true => simp [hsf] at hret
        | false =>
          simp only [hsf, Bool.false_eq_true, if_false, Option.map_some',
            Option.some.injEq] at hret
          rw [← hret]
          exact h3
    rcases convert_linebreak_next inter t tail to_ hz hmem (by rw [hto]; simp only [relined_text]; omega)
      with ⟨hlb, erel⟩ | hlb
    · rw [hto] at erel
      simp only [relined_text] at erel
      rw [erel] at hnc
      exact key inter [] t tail hlb hz hmem hsz (by omega) hu hnc
    · rw [hto] at hlb
      simp only [relined_text] at hlb
      exact key _ _ (to_unix t) [] hlb (to_unix_zero_free t hz) rfl (Or.inl rfl)
        (by simp only [List.length_append, List.length_singleton]; omega)
        (fun u h => hu u (mem_to_unix t u h)) hnc

/-- C9, amended, at a concrete text: `a CR LF b` from the internal format to
UTF-8 with Unix line breaks. -/
theorem convert_unix_no_crlf_witness :
    convert (wide_string [97, 13, 10, 98]) Internal_format
        ⟨.ENCODING_UTF8, .LINEBREAK_UNIX, false⟩ true false =
      some { ret := some [97, 10, 98, 0], new_size := 4, freed := [.relined] } ∧
    has_crlf (output_text .ENCODING_UTF8 [97, 10, 98, 0]) = false :=
  ⟨by decide,
    convert_unix_no_crlf (wide_string [97, 13, 10, 98]) Internal_format
      ⟨.ENCODING_UTF8, .LINEBREAK_UNIX, false⟩ true false [97, 13, 10, 98]
      { ret := some [97, 10, 98, 0], new_size := 4, freed := [.relined] } [97, 10, 98, 0]
      (by decide) (by decide) rfl (by decide) (by decide) (by decide) rfl⟩

/-- C10: for a source declared UTF-8 (with the three bytes of the BOM position
in front when `from.bom` is set, the first byte of the buffer not zero) whose
null-terminated text is not well-formed UTF-8, for every destination format
and every setting of `nullterm` and `src_should_free`, `convert` returns
`NULL` and reports the size 0; the only block released is `src`, when
`src_should_free` is set. -/
theorem convert_rejects_malformed (pre text rest : List Nat) (from_ to_ : format)
    (nullterm src_should_free : Bool) (henc : from_.encoding = .ENCODING_UTF8)
    (hpre : pre.length = if from_.bom then 3 else 0) (hhead : pre.head? ≠ some 0)
    (hz : 0 ∉ text) (hbad : utf8_to_utf16 text = none) :
    convert (pre ++ text ++ 0 :: rest) from_ to_ nullterm src_should_free =
      some { ret := none, new_size := 0,
             freed := if src_should_free then [.src] else [] } := by
  have hsize : (if from_.bom then get_bom from_.encoding.toInt else bom_zero).size =
      pre.length := by
    rw [hpre, henc]
    cases from_.bom <;> rfl
  have hdrop : (pre ++ text ++ 0 :: rest).drop pre.length = text ++ 0 :: rest := by
    rw [List.append_assoc, List.drop_left]
  have hmb : MultiByteToWideChar (text ++ 0 :: rest) = some [] := by
    unfold MultiByteToWideChar
    rw [cstr_append text rest hz]
    simp [hbad]
  have htext : text ≠ [] := by
    intro e
    rw [e] at hbad
    exact absurd hbad (by simp [utf8_to_utf16, utf8_decode])
  have hsrc : ∃ c0 tl, pre ++ text ++ 0 :: rest = c0 :: tl ∧ c0 ≠ 0 := by
    cases pre with
    | cons p ps =>
      exact ⟨p, ps ++ text ++ 0 :: rest, by simp, fun e => hhead (by simp [e])⟩
    | nil =>
      cases text with
      | nil => exact absurd rfl htext
      | cons c cs =>
        exact ⟨c, cs ++ 0 :: rest, by simp, fun e => hz (by simp [e])⟩
  obtain ⟨c0, tl, hs, hc0⟩ := hsrc
  have hdec : convert_decode (pre ++ text ++ 0 :: rest) from_ = some (Stage.quit none []) := by
    unfold convert_decode
    rw [henc]
    simp only
    rw [henc] at hsize
    rw [hsize, hdrop, hs]
    simp only [hc0, if_false, hmb, Option.map_some', List.length_nil, if_true]
  unfold convert
  rw [hdec]
  simp only [Option.some_bind, convert_quit, if_true, List.nil_append]

/-- C10 at the lone continuation byte `80`, declared UTF-8 without BOM. -/
theorem convert_rejects_malformed_witness :
    convert [0x80, 0] ⟨.ENCODING_UTF8, .LINEBREAK_WIN, false⟩ Internal_format true true =
      some { ret := none, new_size := 0, freed := [.src] } :=
  convert_rejects_malformed [] [0x80] [] ⟨.ENCODING_UTF8, .LINEBREAK_WIN, false⟩ Internal_format
    true true rfl rfl (by decide) (by decide) (by decide)

/-- C11: for every source buffer of fewer than `2 ^ 30` bytes and every pair of
formats, if `convert` succeeds with `nullterm = TRUE` and with
`nullterm = FALSE`, the buffer returned with `TRUE` is the buffer returned with
`FALSE` followed by one null unit of the destination encoding (one zero byte
for UTF-8, two for UTF-16), and the size reported with `FALSE` is smaller by
the width of that unit. -/
theorem convert_nullterm (src : List Nat) (from_ to_ : format) (sf : Bool) (r1 r0 : Result)
    (out1 out0 : List Nat) (hlen : src.length < 2 ^ 30)
    (h1 : convert src from_ to_ true sf = some r1) (ho1 : r1.ret = some out1)
    (h0 : convert src from_ to_ false sf = some r0) (ho0 : r0.ret = some out0) :
    out1 = out0 ++ null_unit to_.encoding ∧
    r0.new_size + (null_unit to_.encoding).length = r1.new_size := by
  unfold convert at h1 h0
  obtain ⟨a, hdec, h1⟩ := Option.bind_eq_some.mp h1
  rw [hdec] at h0
  simp only [Option.some_bind] at h0
  cases a with
  | quit i f =>
    simp only [Option.some.injEq] at h1
    rw [← h1] at ho1
    simp [convert_quit] at ho1
  | next inter f1 =>
    simp only at h1 h0
    obtain ⟨b, hlb, h1⟩ := Option.bind_eq_some.mp h1
    rw [hlb] at h0
    simp only [Option.some_bind] at h0
    cases b with
    | quit i f =>
      simp only [Option.some.injEq] at h1
      rw [← h1] at ho1
      simp [convert_quit] at ho1
    | next inter2 f2 =>
      simp only at h1 h0
      obtain ⟨t2, tail2, hz, hmem, hsz, hml⟩ :=
        convert_front_shape src from_ to_ inter inter2 f1 f2 hlen hdec hlb
      obtain ⟨c1, he1, h1⟩ := Option.bind_eq_some.mp h1
      obtain ⟨c0, he0, h0⟩ := Option.bind_eq_some.mp h0
      cases c1 with
      | quit i f =>
        simp only [Option.some.injEq] at h1
        rw [← h1] at ho1
        simp [convert_quit] at ho1
      | next i1 g1 =>
        cases c0 with
        | quit i f =>
          simp only [Option.some.injEq] at h0
          rw [← h0] at ho0
          simp [convert_quit] at ho0
        | next i0 g0 =>
          obtain ⟨hm, hs⟩ := convert_encode_nullterm inter2 t2 tail2 to_ i1 i0 g1 g0 hz hmem
            hsz hml he1 he0
          simp only [Option.some.injEq] at h1 h0
          rw [← h1] at ho1 ⊢
          rw [← h0] at ho0 ⊢
          simp only [convert_quit, Bool.false_eq_true, if_false] at ho1 ho0 ⊢
          cases hs1 : i1.should_free with
          | true => simp [hs1] at ho1
          | false =>
            cases hs0 : i0.should_free with
            | true => simp [hs0] at ho0
            | false =>
              simp only [hs1, hs0, Bool.false_eq_true, if_false, Option.map_some',
                Option.some.injEq] at ho1 ho0
              rw [← ho1, ← ho0, hm, hs]
              exact ⟨rfl, rfl⟩

/-- C11 at a concrete text: `h i` from the internal format to UTF-8 with BOM. -/
theorem convert_nullterm_witness :
    [0xEF, 0xBB, 0xBF, 104, 105, 0] = [0xEF, 0xBB, 0xBF, 104, 105] ++ null_unit .ENCODING_UTF8 ∧
    5 + (null_unit .ENCODING_UTF8).length = 6 :=
  convert_nullterm (wide_string [104, 105]) Internal_format
    ⟨.ENCODING_UTF8, .LINEBREAK_WIN, true⟩ false
    { ret := some [0xEF, 0xBB, 0xBF, 104, 105, 0], new_size := 6, freed := [] }
    { ret := some [0xEF, 0xBB, 0xBF, 104, 105], new_size := 5, freed := [] }
    [0xEF, 0xBB, 0xBF, 104, 105, 0] [0xEF, 0xBB, 0xBF, 104, 105]
    (by decide) (by decide) rfl (by decide) rfl

/-- C12: for the destination encoding UTF-16 and every source buffer of fewer
than `2 ^ 30` bytes that holds a text in its format (a source declared UTF-16
with BOM does not begin with a null unit), `convert` succeeds and returns the
BOM bytes (`FF FE` if `to.bom`, else nothing), then the units of the decoded
text with its line endings rewritten, then one null unit exactly when
`nullterm` is set; the reported size is the BOM length plus twice the number
of text units plus 2 if `nullterm`. -/
theorem convert_utf16_layout (src : List Nat) (from_ to_ : format) (nullterm sf : Bool)
    (t : List Nat) (hlen : src.length < 2 ^ 30)
    (hframe : from_.encoding = .ENCODING_UTF16 → from_.bom = true →
      (units_of_bytes src).head? ≠ some 0)
    (henc : to_.encoding = .ENCODING_UTF16) (htext : decoded_text src from_ = some t) :
    ∃ freed, convert src from_ to_ nullterm sf =
      some
        { ret := some ((if to_.bom then [0xFF, 0xFE] else []) ++
            bytes_of_units (relined_text to_.linebreak t) ++ (if nullterm then [0, 0] else [])),
          new_size := (if to_.bom then 2 else 0) + 2 * (relined_text to_.linebreak t).length +
            (if nullterm then 2 else 0),
          freed := freed } := by
  unfold decoded_text at htext
  obtain ⟨a, hdec, ha⟩ := Option.bind_eq_some.mp htext
  cases a with
  | quit i f => exact absurd ha (by simp)
  | next inter f =>
    simp only at ha
    obtain ⟨hml, hsz⟩ := convert_decode_size src from_ inter f t hlen hdec ha
    obtain ⟨hz, tail, hmem⟩ := cstr_eq_some _ _ ha
    have h30 := two_pow_30
    have h31 := two_pow_31
    have htl : t.length + 1 ≤ inter.mem.length := by
      rw [hmem]
      simp only [List.length_append, List.length_cons]
      omega
    have hrl : (relined_text to_.linebreak t).length ≤ 2 * t.length := by
      cases to_.linebreak with
      | LINEBREAK_WIN => exact to_win_length_le t 0
      | LINEBREAK_UNIX =>
        have := to_unix_length_le t
        simp only [relined_text]
        omega
    have hsz2 : inter.size = (t.length + 1) * 2 := by
      rcases hsz with h | ⟨-, e1, e2, e3⟩
      · exact h
      · exact absurd e3 (hframe e1 e2)
    obtain ⟨freed, hc⟩ := convert_of_decode src from_ to_ nullterm sf inter f t hdec
      ⟨hz, ⟨tail, hmem⟩, hsz2⟩ (by omega)
    refine ⟨freed, ?_⟩
    rw [hc]
    have e : encoded_bytes to_ nullterm (relined_text to_.linebreak t) =
        (if to_.bom then [0xFF, 0xFE] else []) ++
          bytes_of_units (relined_text to_.linebreak t) ++ (if nullterm then [0, 0] else []) := by
      simp only [encoded_bytes, henc]
      have hb : bom_bytes (if to_.bom = true then get_bom encoding.ENCODING_UTF16.toInt
          else bom_zero) = if to_.bom then [0xFF, 0xFE] else [] := by
        cases to_.bom <;> rfl
      rw [hb]
      cases nullterm with
      | true =>
        simp only [if_true, bytes_of_units_append, List.append_assoc]
        rfl
      | false => simp
    rw [e]
    simp only [List.length_append, bytes_of_units_length, Option.some.injEq, Result.mk.injEq,
      true_and, and_true]
    cases to_.bom <;> cases nullterm <;> simp

/-- C12 at a concrete text: the UTF-8 text `a LF` converted to UTF-16 with BOM
and Windows line breaks, without terminator. -/
theorem convert_utf16_layout_witness :
    ∃ freed, convert [97, 10, 0] ⟨.ENCODING_UTF8, .LINEBREAK_UNIX, false⟩
        ⟨.ENCODING_UTF16, .LINEBREAK_WIN, true⟩ false false =
      some
        { ret := some ((if (⟨.ENCODING_UTF16, .LINEBREAK_WIN, true⟩ : format).bom
              then [0xFF, 0xFE] else []) ++
            bytes_of_units (relined_text
              (⟨.ENCODING_UTF16, .LINEBREAK_WIN, true⟩ : format).linebreak [97, 10]) ++
            (if false then [0, 0] else [])),
          new_size := (if (⟨.ENCODING_UTF16, .LINEBREAK_WIN, true⟩ : format).bom then 2 else 0) +
            2 * (relined_text
              (⟨.ENCODING_UTF16, .LINEBREAK_WIN, true⟩ : format).linebreak [97, 10]).length +
            (if false then 2 else 0),
          freed := freed } :=
  convert_utf16_layout [97, 10, 0] ⟨.ENCODING_UTF8, .LINEBREAK_UNIX, false⟩
    ⟨.ENCODING_UTF16, .LINEBREAK_WIN, true⟩ false false [97, 10] (by decide)
    (by intro h; exact absurd h (by decide)) rfl (by decide)

/-- C13: for every UTF-8 destination format (either line ending, with or
without BOM) and both values of `nullterm`, converting the empty canonical
string from the internal format succeeds and returns the terminator alone or
nothing (no text bytes), and converting the null-terminated result back to the
internal format succeeds and returns the empty canonical string, a single null
unit of size 2. -/
theorem convert_empty_round_trip (lb : linebreak) (b nullterm sf1 sf2 : Bool) :
    convert (wide_string []) Internal_format ⟨.ENCODING_UTF8, lb, b⟩ nullterm sf1 =
      some { ret := some (if nullterm then [0] else []), new_size := if nullterm then 1 else 0,
             freed := if sf1 then [.src] else [] } ∧
    convert [0] ⟨.ENCODING_UTF8, lb, b⟩ Internal_format true sf2 =
      some { ret := some (wide_string []), new_size := 2,
             freed := .decoded :: (if sf2 then [.src] else []) } := by
  cases lb <;> cases b <;> cases nullterm <;> cases sf1 <;> cases sf2 <;> decide

/-- C14, at failing inputs: for the one-byte and the two-byte UTF-8 buffers `a`
and `a b`, and for the UTF-16 buffer that holds the BOM alone, each followed by
the loader's two zero bytes, the line-feed scan of `get_format` reads past the
`n + 2` bytes. -/
theorem get_format_reads_outside :
    get_format (fun _ _ => false) ([97] ++ [0, 0]) 1 = none ∧
    get_format (fun _ _ => false) ([97, 98] ++ [0, 0]) 2 = none ∧
    get_format (fun _ _ => true) ([0xFF, 0xFE] ++ [0, 0]) 2 = none := by
  decide

/-- C16, at the failing input: a zero-length file is loaded without an error
(the text becomes empty, the file name is displayed), and `Settings.format`
still holds the format of the document that was open before, here UTF-16 with
Unix line breaks and BOM; whatever memory lies behind the read buffer, which
is never allocated on this path. -/
theorem load_from_file_empty_keeps_format (behind : List Nat) :
    load_from_file (fun _ _ => false) 1000 (some [112]) (some []) behind
        ⟨[104, 105], ⟨.ENCODING_UTF16, .LINEBREAK_UNIX, true⟩, false, [111]⟩ =
      Loaded.done
        { text := [], format := ⟨.ENCODING_UTF16, .LINEBREAK_UNIX, true⟩, is_new := false,
          filename := [112] }
        [Event.set_text] := by
  rfl

/-- C17: on every path through `convert` that returns, the blocks released are
some blocks other than `src`, followed by `src` exactly when `src_should_free`
is set: `src` is released once or not at all, and never by the releases of the
intermediate buffer, also when that buffer is `src` itself. -/
theorem convert_frees_src (src : List Nat) (from_ to_ : format) (nullterm sf : Bool)
    (r : Result) (h : convert src from_ to_ nullterm sf = some r) :
    ∃ pre, r.freed = pre ++ (if sf then [Block.src] else []) ∧ Block.src ∉ pre ∧
      r.freed.count Block.src = if sf then 1 else 0 := by
  have fin : ∀ pre, r.freed = pre ++ (if sf then [Block.src] else []) → Block.src ∉ pre →
      ∃ pre, r.freed = pre ++ (if sf then [Block.src] else []) ∧ Block.src ∉ pre ∧
        r.freed.count Block.src = if sf then 1 else 0 := by
    intro pre e hp
    refine ⟨pre, e, hp, ?_⟩
    rw [e, List.count_append, List.count_eq_zero_of_not_mem hp]
    cases sf <;> simp
  unfold convert at h
  obtain ⟨a, hdec, h⟩ := Option.bind_eq_some.mp h
  rcases convert_decode_blocks src from_ a hdec with e | ⟨inter, e, hi⟩
  · subst e
    simp only [Option.some.injEq] at h
    obtain ⟨pre, hp, hn⟩ := convert_quit_freed none true sf [] (by simp) (by simp)
    rw [h] at hp
    exact fin pre hp hn
  · subst e
    simp only at h
    obtain ⟨b, hlb, h⟩ := Option.bind_eq_some.mp h
    have hb : ∃ inter2 f2, b = Stage.next inter2 f2 ∧ Block.src ∉ f2 ∧
        (inter2.block = Block.src → inter2.should_free = false) := by
      rcases convert_linebreak_blocks inter to_ b hlb with e | ⟨inter2, e, hblk⟩
      · exact ⟨inter, [], e, by simp, hi⟩
      · exact ⟨inter2, _, e, inter_frees_not_src inter hi,
          fun e2 => absurd (hblk.symm.trans e2) (by simp)⟩
    obtain ⟨inter2, f2, e, hf2, hi2⟩ := hb
    subst e
    simp only at h
    obtain ⟨c, henc, h⟩ := Option.bind_eq_some.mp h
    rcases convert_encode_blocks inter2 to_ nullterm c henc with e | ⟨inter3, e, hs3⟩
    · subst e
      simp only [Option.some.injEq] at h
      obtain ⟨pre, hp, hn⟩ := convert_quit_freed (some inter2) true sf ([] ++ f2 ++ [])
        (by simpa using hf2) (by
          intro it e
          simp only [Option.some.injEq] at e
          subst e
          exact hi2)
      rw [h] at hp
      exact fin pre hp hn
    · subst e
      simp only [Option.some.injEq] at h
      obtain ⟨pre, hp, hn⟩ := convert_quit_freed (some inter3) false sf
        ([] ++ f2 ++ (if inter2.should_free then [inter2.block] else []))
        (by
          intro hm
          simp only [List.nil_append] at hm
          rcases List.mem_append.mp hm with hm | hm
          · exact hf2 hm
          · exact inter_frees_not_src inter2 hi2 hm)
        (by
          intro it e _
          simp only [Option.some.injEq] at e
          subst e
          exact hs3)
      rw [h] at hp
      exact fin pre hp hn

/-- C17 at a concrete call: a UTF-16 source (the intermediate buffer is `src`
itself) rewritten to Unix line breaks, with `src_should_free` set. -/
theorem convert_frees_src_witness :
    ∃ pre, ([Block.relined, Block.src] : List Block) = pre ++ (if true then [Block.src] else []) ∧
      Block.src ∉ pre ∧
      ([Block.relined, Block.src] : List Block).count Block.src = if true then 1 else 0 :=
  convert_frees_src (wide_string [97, 13, 10]) Internal_format
    ⟨.ENCODING_UTF8, .LINEBREAK_UNIX, false⟩ false true
    { ret := some [97, 10], new_size := 2, freed := [Block.relined, Block.src] } (by decide)

/-- C18: for every null-terminated text `s` of fewer than `2 ^ 31` units in the
intermediate buffer, the linebreak stage for Windows line breaks leaves a
buffer whose text is `s` with a carriage return inserted before each line feed
that is at index 0 or not preceded by a carriage return (`to_win 0 s`); in it
every line feed is immediately preceded by a carriage return; and when `s` has
no such line feed the stage returns the buffer it was given, unchanged, and
releases nothing. -/
theorem linebreak_stage_to_win (inter : Inter) (s tail : List Nat) (to_ : format)
    (hz : 0 ∉ s) (hmem : inter.mem = s ++ 0 :: tail) (hto : to_.linebreak = .LINEBREAK_WIN)
    (hlen : s.length < 2 ^ 31) :
    ∃ inter2 f2, convert_linebreak inter to_ = some (Stage.next inter2 f2) ∧
      cstr inter2.mem = some (to_win 0 s) ∧ lf_after_cr 0 (to_win 0 s) = true ∧
      (lf_after_cr 0 s = true → inter2 = inter ∧ f2 = [] ∧ to_win 0 s = s) := by
  rw [two_pow_31] at hlen
  have hl := to_win_length_le s 0
  rcases convert_linebreak_next inter s tail to_ hz hmem
    (by rw [hto]; simp only [relined_text]; omega) with ⟨h, e⟩ | h
  · rw [hto] at e
    simp only [relined_text] at e
    refine ⟨inter, [], h, ?_, lf_after_cr_to_win s 0, fun _ => ⟨rfl, rfl, e⟩⟩
    rw [e, hmem]
    exact cstr_append s tail hz
  · rw [hto] at h
    simp only [relined_text] at h
    refine ⟨_, _, h, cstr_append _ [] (to_win_zero_free s 0 hz), lf_after_cr_to_win s 0, ?_⟩
    intro hs
    exfalso
    unfold convert_linebreak at h
    rw [hto] at h
    simp only at h
    rw [hmem, win_count_eq s tail hz 0 0 0 0 true (by simp) (by norm_num)] at h
    simp only [Option.some_bind, Bool.true_and, hs, if_true, Option.some.injEq,
      Stage.next.injEq] at h
    have hfree := h.2
    have hsf := congrArg Inter.should_free h.1
    simp only at hsf
    rw [hsf] at hfree
    simp at hfree

/-- C18 at a concrete text: `a LF b`. -/
theorem linebreak_stage_to_win_witness :
    ∃ inter2 f2,
      convert_linebreak ⟨[97, 10, 98] ++ 0 :: [], 8, false, .src⟩ Internal_format =
        some (Stage.next inter2 f2) ∧
      cstr inter2.mem = some (to_win 0 [97, 10, 98]) ∧
      lf_after_cr 0 (to_win 0 [97, 10, 98]) = true ∧
      (lf_after_cr 0 [97, 10, 98] = true →
        inter2 = ⟨[97, 10, 98] ++ 0 :: [], 8, false, .src⟩ ∧ f2 = [] ∧
          to_win 0 [97, 10, 98] = [97, 10, 98]) :=
  linebreak_stage_to_win ⟨[97, 10, 98] ++ 0 :: [], 8, false, .src⟩ [97, 10, 98] []
    Internal_format (by decide) rfl rfl (by norm_num)

/-- C19: for every null-terminated text `s` of fewer than `2 ^ 31` units in the
intermediate buffer, the linebreak stage for Unix line breaks leaves a buffer
whose text is `s` without the carriage returns that are immediately followed
by a line feed in `s` (`to_unix s`), every other unit kept in order; and when
`s` contains no CR LF pair the stage returns the buffer it was given,
unchanged, and releases nothing. -/
theorem linebreak_stage_to_unix (inter : Inter) (s tail : List Nat) (to_ : format)
    (hz : 0 ∉ s) (hmem : inter.mem = s ++ 0 :: tail) (hto : to_.linebreak = .LINEBREAK_UNIX)
    (hlen : s.length < 2 ^ 31) :
    ∃ inter2 f2, convert_linebreak inter to_ = some (Stage.next inter2 f2) ∧
      cstr inter2.mem = some (to_unix s) ∧
      (has_crlf s = false → inter2 = inter ∧ f2 = [] ∧ to_unix s = s) := by
  rw [two_pow_31] at hlen
  have hl := to_unix_length_le s
  rcases convert_linebreak_next inter s tail to_ hz hmem
    (by rw [hto]; simp only [relined_text]; omega) with ⟨h, e⟩ | h
  · rw [hto] at e
    simp only [relined_text] at e
    refine ⟨inter, [], h, ?_, fun _ => ⟨rfl, rfl, e⟩⟩
    rw [e, hmem]
    exact cstr_append s tail hz
  · rw [hto] at h
    simp only [relined_text] at h
    refine ⟨_, _, h, cstr_append _ [] (to_unix_zero_free s hz), ?_⟩
    intro hs
    exfalso
    unfold convert_linebreak at h
    rw [hto] at h
    simp only at h
    rw [hmem, unix_count_eq s tail hz 0 true (by norm_num)] at h
    simp only [Option.some_bind, Bool.true_and, hs, Bool.not_false, if_true, Option.some.injEq,
      Stage.next.injEq] at h
    have hfree := h.2
    have hsf := congrArg Inter.should_free h.1
    simp only at hsf
    rw [hsf] at hfree
    simp at hfree

/-- C19 at a concrete text: `a CR LF CR b`, whose lone carriage return stays. -/
theorem linebreak_stage_to_unix_witness :
    ∃ inter2 f2,
      convert_linebreak ⟨[97, 13, 10, 13, 98] ++ 0 :: [], 12, false, .src⟩
          ⟨.ENCODING_UTF8, .LINEBREAK_UNIX, false⟩ =
        some (Stage.next inter2 f2) ∧
      cstr inter2.mem = some (to_unix [97, 13, 10, 13, 98]) ∧
      (has_crlf [97, 13, 10, 13, 98] = false →
        inter2 = ⟨[97, 13, 10, 13, 98] ++ 0 :: [], 12, false, .src⟩ ∧ f2 = [] ∧
          to_unix [97, 13, 10, 13, 98] = [97, 13, 10, 13, 98]) :=
  linebreak_stage_to_unix ⟨[97, 13, 10, 13, 98] ++ 0 :: [], 12, false, .src⟩
    [97, 13, 10, 13, 98] [] ⟨.ENCODING_UTF8, .LINEBREAK_UNIX, false⟩ (by decide) rfl rfl
    (by norm_num)

/-- C20, at failing inputs: with the document `h i` open (UTF-16, Unix line
breaks, BOM, file name `o`, `is_new` set), a load of the oversized file
`a b c` under a limit of one character keeps the text and the format but
displays the new file name `p` and clears `is_new`; a load of the file
`80 a b c`, which `convert` rejects as invalid UTF-8, does the same and also
leaves `Settings.format` at the detected UTF-8 descriptor; neither state is
the state before the call, whatever memory lies behind the read buffer. -/
theorem load_from_file_failure_changes_state (behind : List Nat) :
    load_from_file (fun _ _ => false) 1 (some [112]) (some [97, 98, 99]) behind
        ⟨[104, 105], ⟨.ENCODING_UTF16, .LINEBREAK_UNIX, true⟩, true, [111]⟩ =
      Loaded.done
        { text := [104, 105], format := ⟨.ENCODING_UTF16, .LINEBREAK_UNIX, true⟩,
          is_new := false, filename := [112] }
        [Event.error_too_big 3 2 1] ∧
    convert ([0x80, 97, 98, 99] ++ 0 :: 0 :: behind) ⟨.ENCODING_UTF8, .LINEBREAK_WIN, false⟩
        Internal_format true true =
      some { ret := none, new_size := 0, freed := [Block.src] } ∧
    load_from_file (fun _ _ => false) 100 (some [112]) (some [0x80, 97, 98, 99]) behind
        ⟨[104, 105], ⟨.ENCODING_UTF16, .LINEBREAK_UNIX, true⟩, true, [111]⟩ =
      Loaded.done
        { text := [104, 105], format := ⟨.ENCODING_UTF8, .LINEBREAK_WIN, false⟩,
          is_new := false, filename := [112] }
        [Event.alloc 6, Event.get_format 4, Event.convert ⟨.ENCODING_UTF8, .LINEBREAK_WIN, false⟩] :=
  ⟨rfl, rfl, rfl⟩

/-- C21, at the failing input: for the text that is a line feed alone, the
UTF-16 branch of `get_format` records Windows (with and without BOM), and so
does the UTF-8 branch when the BOM is present; the text `LF a b c CR LF` gives
Windows in both branches; for the line feed alone without a BOM the UTF-8
branch starts its scan at `src+4`, past the three bytes `0A 00 00` of the
buffer, and the result is decided by the bytes behind it: Unix when `78 0A 00`
follow. -/
theorem get_format_first_unit_lf :
    get_format (fun _ _ => true) ([10, 0] ++ [0, 0]) 2 =
      some ⟨.ENCODING_UTF16, .LINEBREAK_WIN, false⟩ ∧
    get_format (fun _ _ => true) ([0xFF, 0xFE, 10, 0] ++ [0, 0]) 4 =
      some ⟨.ENCODING_UTF16, .LINEBREAK_WIN, true⟩ ∧
    get_format (fun _ _ => false) ([0xEF, 0xBB, 0xBF, 10] ++ [0, 0]) 4 =
      some ⟨.ENCODING_UTF8, .LINEBREAK_WIN, true⟩ ∧
    get_format (fun _ _ => true) (bytes_of_units [10, 97, 98, 99, 13, 10] ++ [0, 0]) 12 =
      some ⟨.ENCODING_UTF16, .LINEBREAK_WIN, false⟩ ∧
    get_format (fun _ _ => false) ([10, 97, 98, 99, 13, 10] ++ [0, 0]) 6 =
      some ⟨.ENCODING_UTF8, .LINEBREAK_WIN, false⟩ ∧
    get_format (fun _ _ => false) ([10] ++ [0, 0]) 1 = none ∧
    get_format (fun _ _ => false) ([10] ++ [0, 0] ++ [120, 10, 0]) 1 =
      some ⟨.ENCODING_UTF8, .LINEBREAK_UNIX, false⟩ := by
  decide

/-- C22: for every null-terminated text `s` of fewer than `2 ^ 62` units, the
counting loop of the to-Windows rewrite yields the length of `s` plus the
number of its bare line feeds, and the counting loop of the to-Unix rewrite
yields the length of `s` minus the number of its CR LF pairs, both computed
modulo `2 ^ 64` as the source does (the decrement wraps when `s` begins with
CR LF); in each direction the writing loop stores that many non-null units and
one terminating null, which is what the buffer of `count + 1` units holds. -/
theorem linebreak_count_exact (s tail : List Nat) (inter : Inter) (hz : 0 ∉ s)
    (hlen : s.length < 2 ^ 62) :
    win_count 0 0 0 true (s ++ 0 :: tail) =
      some (s.length + bare_lf_count 0 s, decide (bare_lf_count 0 s = 0)) ∧
    (∃ w, win_write 0 0 (s ++ 0 :: tail) = some (w ++ [0]) ∧ 0 ∉ w ∧
      w.length = s.length + bare_lf_count 0 s ∧
      reline inter (s.length + bare_lf_count 0 s) (w ++ [0]) =
        some (Stage.next
          { mem := w ++ [0], size := (s.length + bare_lf_count 0 s + 1) * 2, should_free := true,
            block := .relined }
          (if inter.should_free then [inter.block] else []))) ∧
    crlf_count s ≤ s.length ∧
    unix_count 0 true (s ++ 0 :: tail) =
      some (s.length - crlf_count s, decide (crlf_count s = 0)) ∧
    (∃ w, unix_write (s ++ 0 :: tail) = some (w ++ [0]) ∧ 0 ∉ w ∧
      w.length = s.length - crlf_count s ∧
      reline inter (s.length - crlf_count s) (w ++ [0]) =
        some (Stage.next
          { mem := w ++ [0], size := (s.length - crlf_count s + 1) * 2, should_free := true,
            block := .relined }
          (if inter.should_free then [inter.block] else []))) := by
  have h62 : (2 : Nat) ^ 62 = 4611686018427387904 := by norm_num
  have h64 : (2 : Nat) ^ 64 = 18446744073709551616 := by norm_num
  rw [h62] at hlen
  have hw := to_win_length s 0
  have hwl := to_win_length_le s 0
  have hx := to_unix_length s
  refine ⟨?_, ⟨to_win 0 s, win_write_eq s tail hz 0 0 0 (by simp), to_win_zero_free s 0 hz, hw,
    ?_⟩, by omega, ?_, ⟨to_unix s, unix_write_eq s tail hz, to_unix_zero_free s hz, by omega, ?_⟩⟩
  · rw [win_count_eq s tail hz 0 0 0 0 true (by simp) (by norm_num), Nat.zero_add, hw,
      Bool.true_and, lf_after_cr_iff_count, Nat.mod_eq_of_lt (by rw [h64]; omega)]
  · unfold reline
    rw [if_neg (by simp only [List.length_append, List.length_singleton]; omega),
      Nat.mod_eq_of_lt (by rw [h64]; omega)]
  · rw [unix_count_eq s tail hz 0 true (by norm_num), Nat.zero_add, Bool.true_and,
      has_crlf_iff_count, Nat.mod_eq_of_lt (by rw [h64]; omega)]
    have : (to_unix s).length = s.length - crlf_count s := by omega
    rw [this]
  · unfold reline
    rw [if_neg (by simp only [List.length_append, List.length_singleton]; omega),
      Nat.mod_eq_of_lt (by rw [h64]; omega)]

/-- C22 at a concrete text that begins with CR LF and has one bare line feed:
`CR LF a LF`. -/
theorem linebreak_count_exact_witness :
    win_count 0 0 0 true ([13, 10, 97, 10] ++ 0 :: []) = some (5, false) ∧
    unix_count 0 true ([13, 10, 97, 10] ++ 0 :: []) = some (3, false) :=
  ⟨(linebreak_count_exact [13, 10, 97, 10] [] ⟨[13, 10, 97, 10, 0], 10, false, .src⟩
      (by decide) (by norm_num)).1,
    (linebreak_count_exact [13, 10, 97, 10] [] ⟨[13, 10, 97, 10, 0], 10, false, .src⟩
      (by decide) (by norm_num)).2.2.2.1⟩

/-- C23: for every null-terminated UTF-16 text `s` of fewer than `2 ^ 30`
units that contains no carriage return immediately followed by a line feed,
the linebreak stage for Windows followed by the linebreak stage for Unix
leaves a buffer whose text is `s`; and for `F` = UTF-16, Unix, no BOM,
converting `s` from `F` to the internal format with `nullterm = TRUE` succeeds
and converting the result back to `F` succeeds and returns `s`. -/
theorem convert_unix_detour (inter : Inter) (s tail : List Nat) (sf1 sf2 : Bool)
    (hu : ∀ u ∈ s, u < 65536) (hz : 0 ∉ s) (hno : has_crlf s = false)
    (hmem : inter.mem = s ++ 0 :: tail) (hlen : s.length < 2 ^ 30) :
    (∃ i1 f1 i2 f2,
      convert_linebreak inter ⟨.ENCODING_UTF16, .LINEBREAK_WIN, false⟩ =
        some (Stage.next i1 f1) ∧
      convert_linebreak i1 ⟨.ENCODING_UTF16, .LINEBREAK_UNIX, false⟩ =
        some (Stage.next i2 f2) ∧
      cstr i2.mem = some s) ∧
    ∃ n1 fr1 fr2,
      convert (wide_string s) ⟨.ENCODING_UTF16, .LINEBREAK_UNIX, false⟩ Internal_format
          true sf1 =
        some { ret := some (wide_string (to_win 0 s)), new_size := n1, freed := fr1 } ∧
      convert (wide_string (to_win 0 s)) Internal_format
          ⟨.ENCODING_UTF16, .LINEBREAK_UNIX, false⟩ true sf2 =
        some { ret := some (wide_string s), new_size := (wide_string s).length,
               freed := fr2 } := by
  rw [two_pow_30] at hlen
  have h31 := two_pow_31
  have hwl := to_win_length_le s 0
  have hzw := to_win_zero_free s 0 hz
  have hback := to_unix_to_win s 0 hno
  have huw : ∀ u ∈ to_win 0 s, u < 65536 := by
    intro u h
    rcases mem_to_win s 0 u h with e | e
    · omega
    · exact hu u e
  constructor
  · obtain ⟨i1, f1, t1, h1, hm1⟩ := convert_linebreak_text inter s tail
      ⟨.ENCODING_UTF16, .LINEBREAK_WIN, false⟩ hz hmem (by simp only [relined_text]; omega)
    simp only [relined_text] at hm1
    obtain ⟨i2, f2, t2, h2, hm2⟩ := convert_linebreak_text i1 (to_win 0 s) t1
      ⟨.ENCODING_UTF16, .LINEBREAK_UNIX, false⟩ hzw hm1
      (by simp only [relined_text]; rw [hback]; omega)
    simp only [relined_text] at hm2
    rw [hback] at hm2
    refine ⟨i1, f1, i2, f2, h1, h2, ?_⟩
    rw [hm2]
    exact cstr_append s t2 hz
  · obtain ⟨i1, f1, hd1, hin1⟩ := convert_decode_wide .LINEBREAK_UNIX s hu hz (by omega)
    have hI : Internal_format.linebreak = .LINEBREAK_WIN := rfl
    obtain ⟨fr1, c1⟩ := convert_of_decode (wide_string s)
      ⟨.ENCODING_UTF16, .LINEBREAK_UNIX, false⟩ Internal_format true sf1 i1 f1 s hd1 hin1
      (by rw [hI]; simp only [relined_text]; omega)
    rw [hI] at c1
    simp only [relined_text] at c1
    rw [← wide_string_eq] at c1
    obtain ⟨i2, f2, hd2, hin2⟩ := convert_decode_wide .LINEBREAK_WIN (to_win 0 s) huw hzw
      (by omega)
    obtain ⟨fr2, c2⟩ := convert_of_decode (wide_string (to_win 0 s)) Internal_format
      ⟨.ENCODING_UTF16, .LINEBREAK_UNIX, false⟩ true sf2 i2 f2 (to_win 0 s) hd2 hin2
      (by simp only [relined_text]; rw [hback]; omega)
    simp only [relined_text] at c2
    rw [hback] at c2
    have e : encoded_bytes ⟨.ENCODING_UTF16, .LINEBREAK_UNIX, false⟩ true s = wide_string s := by
      simp [wide_string, encoded_bytes, bom_bytes, bom_zero]
    rw [e] at c2
    exact ⟨_, fr1, fr2, c1, c2⟩

/-- C23 at a concrete text: `LF a LF CR b`, with a line feed at index 0 and a
lone carriage return. -/
theorem convert_unix_detour_witness :
    (∃ i1 f1 i2 f2,
      convert_linebreak ⟨[10, 97, 10, 13, 98] ++ 0 :: [], 12, false, .src⟩
          ⟨.ENCODING_UTF16, .LINEBREAK_WIN, false⟩ =
        some (Stage.next i1 f1) ∧
      convert_linebreak i1 ⟨.ENCODING_UTF16, .LINEBREAK_UNIX, false⟩ =
        some (Stage.next i2 f2) ∧
      cstr i2.mem = some [10, 97, 10, 13, 98]) ∧
    ∃ n1 fr1 fr2,
      convert (wide_string [10, 97, 10, 13, 98]) ⟨.ENCODING_UTF16, .LINEBREAK_UNIX, false⟩
          Internal_format true true =
        some { ret := some (wide_string (to_win 0 [10, 97, 10, 13, 98])), new_size := n1,
               freed := fr1 } ∧
      convert (wide_string (to_win 0 [10, 97, 10, 13, 98])) Internal_format
          ⟨.ENCODING_UTF16, .LINEBREAK_UNIX, false⟩ true true =
        some { ret := some (wide_string [10, 97, 10, 13, 98]),
               new_size := (wide_string [10, 97, 10, 13, 98]).length, freed := fr2 } :=
  convert_unix_detour ⟨[10, 97, 10, 13, 98] ++ 0 :: [], 12, false, .src⟩ [10, 97, 10, 13, 98] []
    true true (by decide) (by decide) (by decide) rfl (by norm_num)

end Jittey
